import Mathlib

/-! The redismq input plugin: embedding and properties.

A shallow embedding of `plugins/inputs/redismq/redismq.go` and the
properties of it that are proved or refuted.

* Go strings are byte sequences (`Str`); a byte is a natural number.
* The standard-library functions the plugin calls (`strings`, `unicode`,
  `unicode/utf8`, `strconv`, `bufio`, and `regexp` for the one pattern
  used) are embedded as executable functions that follow their Go sources.
* `url.Parse`, `net.SplitHostPort` and `net.DialTimeout` are inputs of the
  embedding (`Env`): the plugin is described for every result they give.
* A connection is the data that will arrive on it, one element for each
  arrival, the error its reads end with, and the log of what was written
  to it. A read delivers the next arrival, cut to the room the caller has.
  The deadline and the closing of the connection are not embedded.
* The accumulator is the log of the calls made on it.
* Loops of the library that read until something is found run on fuel
  computed from the data still to arrive; every result stated below is
  reached within it.
-/

namespace RedisMQ

/-! ## Strings -/

/-- A Go string: a sequence of bytes. -/
abbrev Str := List Nat

/-- The bytes of an ASCII literal. -/
def bytes (s : String) : Str := s.toList.map Char.toNat

namespace strings

/-- Go `strings.HasPrefix`. -/
def HasPrefix (s pre : Str) : Bool := pre.isPrefixOf s

/-- Go `strings.Contains`: `substr` occurs somewhere in `s`. -/
def Contains : Str → Str → Bool
  | [], substr => substr.isEmpty
  | c :: s, substr => substr.isPrefixOf (c :: s) || Contains s substr

/-- Scan of `strings.LastIndex`: `i` is the index of the head of the
remaining text, `best` the last index at which `sep` was seen so far. -/
def lastIndexFrom (sep : Str) : Str → Int → Int → Int
  | [], i, best => if sep.isEmpty then i else best
  | c :: s, i, best =>
    lastIndexFrom sep s (i + 1) (if sep.isPrefixOf (c :: s) then i else best)

/-- Go `strings.LastIndex`: index of the last occurrence of `sep` in `s`,
or `-1`. -/
def LastIndex (s sep : Str) : Int := lastIndexFrom sep s 0 (-1)

end strings

/-! ## unicode/utf8 and strings.TrimSpace -/

namespace utf8

/-- Go `utf8.RuneError`. -/
def RuneError : Nat := 0xFFFD

/-- Go `utf8.RuneSelf`: bytes below it are single-byte runes. -/
def RuneSelf : Nat := 0x80

/-- A continuation byte (`locb ≤ b ≤ hicb`). -/
def isCont (b : Nat) : Bool := 0x80 ≤ b && b ≤ 0xBF

/-- Go `utf8.RuneStart`: `b` is not a continuation byte. -/
def RuneStart (b : Nat) : Bool := !(0x80 ≤ b && b ≤ 0xBF)

/-- Go `utf8.DecodeRuneInString`: the first rune of `s` and its width in
bytes; `(RuneError, 0)` for the empty string and `(RuneError, 1)` for an
invalid encoding. The accepted ranges of the second byte are those of the
`acceptRanges` table. -/
def DecodeRuneInString : Str → Nat × Nat
  | [] => (RuneError, 0)
  | s0 :: rest =>
    if s0 < 0x80 then (s0, 1)
    else if 0xC2 ≤ s0 && s0 ≤ 0xDF then
      match rest with
      | s1 :: _ =>
        if isCont s1 then ((s0 % 32) * 64 + s1 % 64, 2) else (RuneError, 1)
      | _ => (RuneError, 1)
    else if 0xE0 ≤ s0 && s0 ≤ 0xEF then
      match rest with
      | s1 :: s2 :: _ =>
        let lo := if s0 = 0xE0 then 0xA0 else 0x80
        let hi := if s0 = 0xED then 0x9F else 0xBF
        if lo ≤ s1 && s1 ≤ hi && isCont s2 then
          ((s0 % 16) * 4096 + (s1 % 64) * 64 + s2 % 64, 3)
        else (RuneError, 1)
      | _ => (RuneError, 1)
    else if 0xF0 ≤ s0 && s0 ≤ 0xF4 then
      match rest with
      | s1 :: s2 :: s3 :: _ =>
        let lo := if s0 = 0xF0 then 0x90 else 0x80
        let hi := if s0 = 0xF4 then 0x8F else 0xBF
        if lo ≤ s1 && s1 ≤ hi && isCont s2 && isCont s3 then
          ((s0 % 8) * 262144 + (s1 % 64) * 4096 + (s2 % 64) * 64 + s3 % 64, 4)
        else (RuneError, 1)
      | _ => (RuneError, 1)
    else (RuneError, 1)

/-- The backward search of `utf8.DecodeLastRuneInString` for the start of
the last rune: from `start` down to `lim`, stopping at a rune start. -/
def backToRuneStart (s : Str) (lim : Int) : Nat → Int → Int
  | 0, start => start
  | fuel + 1, start =>
    if lim ≤ start then
      if RuneStart (s.getD start.toNat 0) then start
      else backToRuneStart s lim fuel (start - 1)
    else start

/-- Go `utf8.DecodeLastRuneInString`: the last rune of `s` and its width. -/
def DecodeLastRuneInString (s : Str) : Nat × Nat :=
  let e : Int := s.length
  if s.length = 0 then (RuneError, 0)
  else
    let r := s.getD (s.length - 1) 0
    if r < RuneSelf then (r, 1)
    else
      let lim : Int := if e - 4 < 0 then 0 else e - 4
      let start0 := backToRuneStart s lim 4 (e - 2)
      let start : Int := if start0 < 0 then 0 else start0
      let (r, size) := DecodeRuneInString (s.drop start.toNat)
      if start + size ≠ e then (RuneError, 1) else (r, size)

end utf8

namespace unicode

/-- Go `unicode.IsSpace`: the Latin-1 cases and the `White_Space` table. -/
def IsSpace (r : Nat) : Bool :=
  (0x09 ≤ r && r ≤ 0x0D) || r = 0x20 || r = 0x85 || r = 0xA0 || r = 0x1680 ||
  (0x2000 ≤ r && r ≤ 0x200A) || r = 0x2028 || r = 0x2029 || r = 0x202F ||
  r = 0x205F || r = 0x3000

end unicode

namespace strings

/-- The loop of `indexFunc(s, unicode.IsSpace, false)` followed by the
slice `s[i:]` of `TrimLeftFunc`: drop leading white-space runes. -/
def trimLeftLoop : Nat → Str → Str
  | 0, _ => []
  | fuel + 1, s =>
    match s with
    | [] => []
    | _ :: _ =>
      let (r, size) := utf8.DecodeRuneInString s
      if unicode.IsSpace r then trimLeftLoop fuel (s.drop size) else s

/-- Go `strings.TrimLeftFunc(s, unicode.IsSpace)`. -/
def TrimLeftSpace (s : Str) : Str := trimLeftLoop s.length s

/-- Go `lastIndexFunc(s, unicode.IsSpace, false)`: the index of the last
rune that is not white space, or `-1`; `i` is the end of the part still
to be examined. -/
def lastIndexNonSpace (s : Str) : Nat → Nat → Int
  | 0, _ => -1
  | fuel + 1, i =>
    if 0 < i then
      let (r, size) := utf8.DecodeLastRuneInString (s.take i)
      if unicode.IsSpace r then lastIndexNonSpace s fuel (i - size)
      else ((i - size : Nat) : Int)
    else -1

/-- Go `strings.TrimRightFunc(s, unicode.IsSpace)`. -/
def TrimRightSpace (s : Str) : Str :=
  let i := lastIndexNonSpace s s.length s.length
  if 0 ≤ i && utf8.RuneSelf ≤ s.getD i.toNat 0 then
    s.take (i.toNat + (utf8.DecodeRuneInString (s.drop i.toNat)).2)
  else s.take (i + 1).toNat

/-- Go `strings.TrimSpace`: `s` without leading and trailing white space,
as defined by Unicode. -/
def TrimSpace (s : Str) : Str := TrimRightSpace (TrimLeftSpace s)

end strings

/-! ## strconv -/

namespace strconv

/-- The two errors of `strconv`: `ErrSyntax` and `ErrRange`. -/
inductive NumError where
  | invalid
  | outOfRange
  deriving DecidableEq, Repr

/-- The digit loop of `strconv.ParseUint(s, 10, 64)`: `n` is the value read
so far. A byte that is not a decimal digit is a syntax error; a value that
leaves 64 bits is a range error, reported as soon as it is met. -/
def parseUintLoop : Str → Nat → Except NumError Nat
  | [], n => .ok n
  | c :: s, n =>
    if 48 ≤ c && c ≤ 57 then
      -- cutoff = maxUint64/10 + 1
      if (2 ^ 64 - 1) / 10 + 1 ≤ n then .error .outOfRange
      else
        let n1 := n * 10 + (c - 48)
        if 2 ^ 64 - 1 < n1 then .error .outOfRange
        else parseUintLoop s n1
    else .error .invalid

/-- Go `strconv.ParseUint(s, 10, 64)`. -/
def ParseUint (s : Str) : Except NumError Nat :=
  if s.isEmpty then .error .invalid else parseUintLoop s 0

/-- Go `strconv.ParseInt(s, 10, 64)`: an optional sign, then the unsigned
value, which must fit a signed 64-bit integer. -/
def ParseInt (s : Str) : Except NumError Int :=
  match s with
  | [] => .error .invalid
  | c :: rest =>
    let neg := c = 45
    let digits := if c = 43 || c = 45 then rest else s
    match ParseUint digits with
    | .error .invalid => .error .invalid
    | .error .outOfRange => .error .outOfRange
    | .ok un =>
      -- cutoff = 1 << 63
      if !neg && 2 ^ 63 ≤ un then .error .outOfRange
      else if neg && 2 ^ 63 < un then .error .outOfRange
      else .ok (if neg then -(un : Int) else (un : Int))

/-- The digit loop of `strconv.formatBits` in base 10: the decimal digits of
`u`, most significant first, in front of `acc`. -/
def formatBits : Nat → Nat → Str → Str
  | 0, _, acc => acc
  | fuel + 1, u, acc =>
    if u < 10 then (48 + u) :: acc
    else formatBits fuel (u / 10) ((48 + u % 10) :: acc)

/-- Go `strconv.FormatUint(u, 10)`. -/
def FormatUint (u : Nat) : Str := formatBits (u + 1) u []

/-- Go `strconv.FormatInt(i, 10)` (and `strconv.Itoa`, and the `%d` verb
of `fmt`): the base-10 rendering of `i`, with a leading `-` when negative. -/
def FormatInt (i : Int) : Str :=
  if i < 0 then 45 :: FormatUint i.natAbs else FormatUint i.natAbs

end strconv

/-! ## The suffix pattern -/

namespace regexp

/-- An ASCII decimal digit, the class `[0-9]`. -/
def isDigit (c : Nat) : Bool := 48 ≤ c && c ≤ 57

/-- Whether `_[0-9]+$` matches with its first byte at the head of `t`: an
underscore, then one or more digits up to the end of the text. -/
def matchHere : Str → Bool
  | 95 :: d => !d.isEmpty && d.all isDigit
  | _ => false

/-- The search of `regexp.MustCompile("_[0-9]+$").FindStringIndex`: the
leftmost position at which the pattern matches, with the end of the match
(the end of the text), or `none` (Go `nil`). `i` is the index of the head
of the remaining text. -/
def findFrom : Str → Nat → Option (Nat × Nat)
  | [], _ => none
  | c :: s, i =>
    if matchHere (c :: s) then some (i, i + (c :: s).length)
    else findFrom s (i + 1)

/-- Go `re.FindStringIndex(key)` for `re = regexp.MustCompile("_[0-9]+$")`. -/
def FindStringIndex (key : Str) : Option (Nat × Nat) := findFrom key 0

end regexp

/-! ## Errors, connections and the accumulator -/

/-- The Go `error` values the plugin can meet. -/
inductive GoError where
  /-- The plugin's `ErrInvalidKey`. -/
  | ErrInvalidKey
  /-- The plugin's `ErrProtocolError`. -/
  | ErrProtocolError
  /-- Go `io.EOF`. -/
  | EOF
  /-- Go `io.ErrNoProgress`. -/
  | ErrNoProgress
  /-- Go `bufio.ErrTooLong`. -/
  | ErrTooLong
  /-- An error of `net` or `net/url` (a refused or timed-out connection, an
  address that does not parse), with its message. -/
  | external (msg : Str)
  /-- An error built by `fmt.Errorf`, with its message. -/
  | errorf (msg : Str)
  deriving DecidableEq, Repr

/-- Go `err.Error()`: the message of an error. -/
def GoError.Error : GoError → Str
  | .ErrInvalidKey => bytes "key name is invalid"
  | .ErrProtocolError => bytes "redis protocol error"
  | .EOF => bytes "EOF"
  | .ErrNoProgress => bytes "multiple Read calls return no data or error"
  | .ErrTooLong => bytes "bufio.Scanner: token too long"
  | .external msg => msg
  | .errorf msg => msg

/-- A connection (`net.Conn`), or any `io.Reader` such as the
`strings.Reader` of the tests: `incoming` is the data its reads will
deliver, one element for each arrival; once it is used up every read fails
with `failure` (`io.EOF` when the peer closed or the string ended, a
time-out when the deadline passed). `written` logs the writes. -/
structure Conn where
  incoming : List Str
  failure : GoError
  written : List Str := []
  deriving DecidableEq, Repr

/-- What one `Read` call returns: some bytes, or an error. -/
inductive ReadResult where
  | data (p : Str)
  | err (e : GoError)
  deriving DecidableEq, Repr

/-- One read of at most `cap` bytes from the pending arrivals: the next
arrival, or its first `cap` bytes when it is longer (the rest stays
pending). An arrival without bytes delivers nothing and is passed over. -/
def readArrivals (failure : GoError) : List Str → Nat → ReadResult × List Str
  | [], _ => (.err failure, [])
  | [] :: rest, cap => readArrivals failure rest cap
  | (b :: chunk) :: rest, cap =>
    if (b :: chunk).length ≤ cap then (.data (b :: chunk), rest)
    else (.data ((b :: chunk).take cap), (b :: chunk).drop cap :: rest)

/-- Go `c.Read(p)` with `len(p) = cap`. -/
def Conn.Read (c : Conn) (cap : Nat) : ReadResult × Conn :=
  let res := readArrivals c.failure c.incoming cap
  (res.1, { c with incoming := res.2 })

/-- Go `c.Write(p)`; the plugin ignores its results. -/
def Conn.Write (c : Conn) (p : Str) : Conn :=
  { c with written := c.written ++ [p] }

/-- The bytes still to arrive on a connection, in order. -/
def Conn.stream (c : Conn) : Str := c.incoming.flatten

/-- The number of bytes still to arrive on a connection. -/
def Conn.pending (c : Conn) : Nat := c.stream.length

/-- A tag set or field set: a Go map written as the list of its entries. -/
abbrev Tags := List (Str × Str)

/-- The field set of a measurement: `map[string]interface{}`, whose only
values here are `int64`. -/
abbrev Fields := List (Str × Int)

/-- A call made on the `telegraf.Accumulator`. -/
inductive AccCall where
  | AddFields (measurement : Str) (fields : Fields) (tags : Tags)
  | AddError (err : Option GoError)
  deriving DecidableEq, Repr

/-- The accumulator: the log of the calls made on it, oldest first. -/
abbrev Accumulator := List AccCall

/-- Whether a call recorded a measurement. -/
def AccCall.isMeasurement : AccCall → Bool
  | .AddFields _ _ _ => true
  | .AddError _ => false

/-- Whether a call reported an error that is not `nil`. -/
def AccCall.isError : AccCall → Bool
  | .AddError (some _) => true
  | _ => false

/-! ## bufio -/

namespace bufio

/-- The size of the buffer of `bufio.NewReader`. -/
def defaultBufSize : Nat := 4096

/-- Go `bufio.MaxScanTokenSize`. -/
def MaxScanTokenSize : Nat := 64 * 1024

/-- The initial size of a scanner's buffer. -/
def startBufSize : Nat := 4096

/-- A `*bufio.Reader`: the bytes it holds unread (`b.buf[b.r:b.w]`) and the
read error it has met and not yet returned (`b.err`). The reader it wraps
is passed along with it. -/
structure Reader where
  buf : Str := []
  err : Option GoError := none
  deriving DecidableEq, Repr

/-- Go `bufio.NewReader(c)`. -/
def NewReader : Reader := {}

/-- Split `s` after its first `\n`: the line with its `\n`, and the rest. -/
def cutLine : Str → Option (Str × Str)
  | [] => none
  | c :: s =>
    if c = 10 then some ([10], s)
    else match cutLine s with
      | some (line, rest) => some (c :: line, rest)
      | none => none

/-- The loop of `rdr.ReadString('\n')` (`collectFragments` over
`ReadSlice`): `full` holds the full buffers already set aside. Each round
looks for the delimiter in the buffer, then returns on a pending error,
sets a full buffer aside, or fills the buffer with one read. -/
def readStringLoop : Nat → Reader → Conn → Str → (Str × Option GoError) × Reader × Conn
  | 0, r, c, full => ((full, some .ErrNoProgress), r, c)
  | fuel + 1, r, c, full =>
    match cutLine r.buf with
    | some (line, rest) => ((full ++ line, none), { r with buf := rest }, c)
    | none =>
      match r.err with
      | some e => ((full ++ r.buf, some e), { buf := [], err := none }, c)
      | none =>
        if defaultBufSize ≤ r.buf.length then
          readStringLoop fuel { r with buf := [] } c (full ++ r.buf)
        else
          match c.Read (defaultBufSize - r.buf.length) with
          | (.data p, c1) => readStringLoop fuel { r with buf := r.buf ++ p } c1 full
          | (.err e, c1) => readStringLoop fuel { r with err := some e } c1 full

/-- Go `rdr.ReadString('\n')`: the bytes up to and including the first
`\n`, or what was read and the error met before a `\n` came. -/
def Reader.ReadString (r : Reader) (c : Conn) : (Str × Option GoError) × Reader × Conn :=
  readStringLoop (2 * (r.buf.length + c.pending) + 4) r c []

/-- Go `rdr.Read(p)` with `len(p) = cap` (`cap > 0`): buffered bytes first;
with an empty buffer, one read of the wrapped reader, straight into `p`
when `p` is at least as large as the buffer. -/
def Reader.Read (r : Reader) (c : Conn) (cap : Nat) : ReadResult × Reader × Conn :=
  if r.buf.isEmpty then
    match r.err with
    | some e => (.err e, { r with err := none }, c)
    | none =>
      if defaultBufSize ≤ cap then
        match c.Read cap with
        | (.data p, c1) => (.data p, r, c1)
        | (.err e, c1) => (.err e, r, c1)
      else
        match c.Read defaultBufSize with
        | (.data p, c1) => (.data (p.take cap), { r with buf := p.drop cap }, c1)
        | (.err e, c1) => (.err e, r, c1)
  else (.data (r.buf.take cap), { r with buf := r.buf.drop cap }, c)

/-- Go `dropCR`: drop one trailing `\r`. -/
def dropCR (data : Str) : Str :=
  if data.getLast? = some 13 then data.dropLast else data

/-- The text before the first `\n` of `data`, when there is one. -/
def beforeNewline : Str → Option Str
  | [] => none
  | c :: s =>
    if c = 10 then some []
    else match beforeNewline s with
      | some line => some (c :: line)
      | none => none

/-- Go `bufio.ScanLines`, the split function of a new scanner: the token it
finds in `data`, or `none` when it asks for more data. -/
def ScanLines (data : Str) (atEOF : Bool) : Option Str :=
  if atEOF && data.isEmpty then none
  else match beforeNewline data with
    | some line => some (dropCR line)
    | none => if atEOF then some (dropCR data) else none

/-- The result of the first `scanner.Scan()`: `token text` when it returns
true (`scanner.Text()` is then `text`), `stop err` when it returns false
(`scanner.Err()` is then `err`, `nil` after `io.EOF`). -/
inductive Scanned where
  | token (text : Str)
  | stop (err : Option GoError)
  deriving DecidableEq, Repr

/-- The loop of the first `Scan` of a new scanner over `r`: `buf` is the
data held so far, `cap` the size of the scanner's buffer, `err` the read
error met. Each round tries the split function, stops on an error, grows a
full buffer (up to `MaxScanTokenSize`, beyond which the token is too long)
and reads once. -/
def scanLoop : Nat → Reader → Conn → Str → Nat → Option GoError → Scanned × Reader × Conn
  | 0, r, c, _, _, _ => (.stop (some .ErrNoProgress), r, c)
  | fuel + 1, r, c, buf, cap, err =>
    match (if !buf.isEmpty || err.isSome then ScanLines buf err.isSome else none) with
    | some text => (.token text, r, c)
    | none =>
      match err with
      | some e => (.stop (if e = .EOF then none else some e), r, c)
      | none =>
        if buf.length = cap ∧ MaxScanTokenSize ≤ cap then (.stop (some .ErrTooLong), r, c)
        else
          let cap1 :=
            if buf.length = cap then
              (if cap * 2 = 0 then startBufSize else min (cap * 2) MaxScanTokenSize)
            else cap
          match r.Read c (cap1 - buf.length) with
          | (.data p, r1, c1) => scanLoop fuel r1 c1 (buf ++ p) cap1 none
          | (.err e, r1, c1) => scanLoop fuel r1 c1 buf cap1 (some e)

/-- Go `scanner := bufio.NewScanner(rdr); scanner.Scan()`: the first line
of what `rdr` delivers. -/
def Scan (r : Reader) (c : Conn) : Scanned × Reader × Conn :=
  scanLoop (r.buf.length + c.pending + 3) r c [] 0 none

end bufio

/-! ## The plugin -/

/-- Go `url.Userinfo`: the user name and the password of a URL, with
whether a password is set. -/
structure Userinfo where
  username : Str
  password : Str
  passwordSet : Bool
  deriving DecidableEq, Repr

/-- Go `u.User.Password()`: the password and whether it is set. -/
def Userinfo.Password (u : Userinfo) : Str × Bool := (u.password, u.passwordSet)

/-- The fields of Go `url.URL` the plugin reads; `User` is `none` for a
`nil` pointer. -/
structure URL where
  Scheme : Str
  User : Option Userinfo
  Host : Str
  Path : Str
  deriving DecidableEq, Repr

/-- The network side of a run, outside the plugin: what `url.Parse` returns
for a string, whether `net.SplitHostPort` returns an error for a host, and
what `net.DialTimeout` returns for a network and an address. -/
structure Env where
  Parse : Str → Except GoError URL
  SplitHostPortFails : Str → Bool
  DialTimeout : Str → Str → Except GoError Conn

/-- The plugin's `Queue`: one configured group. -/
structure Queue where
  Server : Str
  DB : Int
  Keys : List Str
  deriving DecidableEq, Repr

/-- The plugin's `defaultPort`. -/
def defaultPort : Str := bytes "6379"

/-- The tags `gatherQueue` builds for one key (the body of its loop between
the `LLEN` write and the call of `gatherQueueOutput`): `real_key` is the
key as configured; when `_[0-9]+$` matches, `key` is cut at its last
underscore. `host` is `u.Host`. -/
def keyTags (host : Str) (db : Int) (key : Str) : Tags :=
  let real_key := key
  let key :=
    if (regexp.FindStringIndex key).isSome then
      let idx := strings.LastIndex key (bytes "_")
      if idx ≠ -1 then key.take idx.toNat else key
    else key
  [(bytes "key", key), (bytes "db", strconv.FormatInt db),
   (bytes "real_key", real_key), (bytes "redis_addr", host)]

/-- The plugin's `gatherQueueOutput`: scan one line from `rdr`; a line
containing `ERR` or an empty line is `ErrProtocolError`; otherwise one
measurement `redis_mq` is added, with the field `length` when the line is
`:` followed by an integer. Returns the error (`none` for `nil`), the
reader and connection after the scan, and the accumulator. -/
def gatherQueueOutput (rdr : bufio.Reader) (c : Conn) (acc : Accumulator) (tags : Tags) :
    Option GoError × bufio.Reader × Conn × Accumulator :=
  match bufio.Scan rdr c with
  | (.stop err, rdr1, c1) => (err, rdr1, c1, acc)
  | (.token line, rdr1, c1) =>
    if strings.Contains line (bytes "ERR") then (some .ErrProtocolError, rdr1, c1, acc)
    else if line.length = 0 then (some .ErrProtocolError, rdr1, c1, acc)
    else
      let fields : Fields :=
        if line.head? = some 58 then
          match strconv.ParseInt (line.drop 1) with
          | .ok length => [(bytes "length", length)]
          | .error _ => []
        else []
      (none, rdr1, c1, acc ++ [.AddFields (bytes "redis_mq") fields tags])

/-- The loop of `gatherQueue` over `queue.Keys`: for each key write `LLEN`,
build the tags and call `gatherQueueOutput`, whose result is not looked
at. -/
def measureKeys (host : Str) (db : Int) :
    List Str → bufio.Reader → Conn → Accumulator → Conn × Accumulator
  | [], _, c, acc => (c, acc)
  | key :: keys, rdr, c, acc =>
    let c1 := c.Write (bytes "LLEN " ++ key ++ bytes "\r\n")
    let tags := keyTags host db key
    match gatherQueueOutput rdr c1 acc tags with
    | (_, rdr2, c2, acc2) => measureKeys host db keys rdr2 c2 acc2

/-- How a call ended: it returned an error value (`none` for `nil`), or it
panicked on an index or slice out of range. -/
inductive Outcome where
  | returned (err : Option GoError)
  | panicked
  deriving DecidableEq, Repr

/-- What a call of `gatherQueue` did: how it ended, the accumulator after
it, the network and address it dialed (if it came to dial), and the
connection as it left it (if one was opened). -/
structure Run where
  outcome : Outcome
  acc : Accumulator
  dialed : Option (Str × Str)
  conn : Option Conn
  deriving DecidableEq, Repr

/-- The `AUTH` step of `gatherQueue`: with a non-empty password, write
`AUTH`, read one line with a new reader, and check its first byte.
`none` when the step lets the session go on. -/
def authenticate (u : URL) (c : Conn) : Option Outcome × Conn :=
  match u.User with
  | none => (none, c)
  | some user =>
    let (pwd, set) := user.Password
    if set && pwd ≠ [] then
      let c1 := c.Write (bytes "AUTH " ++ pwd ++ bytes "\r\n")
      match bufio.NewReader.ReadString c1 with
      | ((_, some err), _, c2) => (some (.returned (some err)), c2)
      | ((line, none), _, c2) =>
        match line with
        | [] => (some .panicked, c2)
        | l0 :: _ =>
          if l0 ≠ 43 then
            match strings.TrimSpace line with
            | [] => (some .panicked, c2)
            | _ :: msg => (some (.returned (some (.errorf msg))), c2)
          else (none, c2)
    else (none, c)

/-- The string `gatherQueue` parses: the configured server, with `tcp://`
in front when it starts with neither `tcp://` nor `unix://`. -/
def serverURL (server : Str) : Str :=
  if !strings.HasPrefix server (bytes "tcp://") &&
      !strings.HasPrefix server (bytes "unix://") then
    bytes "tcp://" ++ server
  else server

/-- The address part of `gatherQueue`, after a successful `url.Parse`: a
URL without scheme falls back to `tcp` with the whole string as host; a
`tcp` host for which `net.SplitHostPort` fails gets the default port; the
address to dial is `u.Host` for `tcp` and `u.Path` otherwise. Returns the
URL as edited and the address. -/
def resolveAddress (env : Env) (serv : Str) (u0 : URL) : URL × Str :=
  let u1 : URL :=
    if u0.Scheme = [] then { u0 with Scheme := bytes "tcp", Host := serv, Path := [] }
    else u0
  if u1.Scheme = bytes "tcp" then
    let u : URL :=
      if env.SplitHostPortFails u1.Host then
        { u1 with Host := u1.Host ++ bytes ":" ++ defaultPort }
      else u1
    (u, u.Host)
  else (u1, u1.Path)

/-- The session part of `gatherQueue`, on an open connection: `AUTH`, then
`SELECT` with a new reader, then the loop over the keys. -/
def session (u : URL) (queue : Queue) (c : Conn) (acc : Accumulator) :
    Outcome × Conn × Accumulator :=
  match authenticate u c with
  | (some out, c1) => (out, c1, acc)
  | (none, c1) =>
    let c2 := c1.Write (bytes "SELECT " ++ strconv.FormatInt queue.DB ++ bytes "\r\n")
    match bufio.NewReader.ReadString c2 with
    | ((_, some err), _, c3) => (.returned (some err), c3, acc)
    | ((_, none), rdr, c3) =>
      match measureKeys u.Host queue.DB queue.Keys rdr c3 acc with
      | (c4, acc4) => (.returned none, c4, acc4)

/-- The plugin's `gatherQueue`: parse the server address, dial, and run
the session. An address that does not parse is reported to the accumulator
and returned; a failed dial is returned. -/
def gatherQueue (env : Env) (queue : Queue) (acc : Accumulator) : Run :=
  let serv := serverURL queue.Server
  match env.Parse serv with
  | .error err =>
    { outcome := .returned (some err),
      acc := acc ++ [.AddError (some (.errorf
        (bytes "Unable to parse to address '" ++ serv ++ bytes "': " ++ err.Error)))],
      dialed := none, conn := none }
  | .ok u0 =>
    match resolveAddress env serv u0 with
    | (u, address) =>
      match env.DialTimeout u.Scheme address with
      | .error err =>
        { outcome := .returned (some (.errorf
            (bytes "Unable to connect to redis server '" ++ address ++ bytes "': " ++ err.Error))),
          acc := acc, dialed := some (u.Scheme, address), conn := none }
      | .ok c =>
        match session u queue c acc with
        | (out, c1, acc1) =>
          { outcome := out, acc := acc1, dialed := some (u.Scheme, address), conn := some c1 }

/-- The goroutine `Gather` starts for one group: a group without keys
reports `ErrInvalidKey`; otherwise what `gatherQueue` returns is passed to
`acc.AddError` (a panic ends the run before that). -/
def gatherGroup (env : Env) (queue : Queue) (acc : Accumulator) : Run :=
  if queue.Keys.length = 0 then
    { outcome := .returned none, acc := acc ++ [.AddError (some .ErrInvalidKey)],
      dialed := none, conn := none }
  else
    let run := gatherQueue env queue acc
    match run.outcome with
    | .returned err => { run with outcome := .returned none, acc := run.acc ++ [.AddError err] }
    | .panicked => run

/-- The plugin's `Gather`: one goroutine for each configured group, each
with its own network side, all waited for. The result lists what each
goroutine did; the calls it made on the accumulator are those it added to
an empty log (how the calls of different goroutines interleave is left
open). -/
def Gather (groups : List (Env × Queue)) : List Run :=
  groups.map (fun g => gatherGroup g.1 g.2 [])

/-! ## Notions used to state the properties -/

namespace strconv

/-- The decimal digits of `u`, most significant first: what `formatBits`
computes, by recursion on `u`. -/
def decimal (u : Nat) : Str :=
  if u < 10 then [48 + u] else decimal (u / 10) ++ [48 + u % 10]
termination_by u
decreasing_by omega

/-- The value of a string of decimal digits. -/
def decimalValue (ds : Str) : Nat := ds.foldl (fun a c => a * 10 + (c - 48)) 0

/-- The text of a base-10 signed 64-bit integer: an optional sign `+` or
`-`, then one or more decimal digits whose value, with the sign, lies in
`[-2^63, 2^63 - 1]`. -/
def IsInt64Text (s : Str) : Prop :=
  ∃ sign ds : Str, s = sign ++ ds ∧ (sign = [] ∨ sign = [43] ∨ sign = [45]) ∧
    ds ≠ [] ∧ (∀ c ∈ ds, 48 ≤ c ∧ c ≤ 57) ∧
    (if sign = [45] then decimalValue ds ≤ 2 ^ 63 else decimalValue ds < 2 ^ 63)

end strconv

/-- The result of `url.Parse` for `tcp://host` (no password) or
`tcp://:password@host`. -/
def tcpURL (password host : Str) : URL :=
  { Scheme := bytes "tcp",
    User := if password = [] then none
      else some { username := [], password := password, passwordSet := true },
    Host := host, Path := [] }

/-- A server reached over TCP at `host`, configured without port.
`url.Parse` accepts the URL of this server; `net.SplitHostPort` fails for
a host that does not hold exactly one colon; the dial of `host:6379` opens
a connection on which `replies` arrive one after the other, reads timing
out once they are used up. -/
def tcpServer (password host : Str) (replies : List Str) : Env where
  Parse := fun s =>
    if s = bytes "tcp://" ++ (if password = [] then [] else bytes ":" ++ password ++ bytes "@")
        ++ host then .ok (tcpURL password host)
    else .error (.external (bytes "parse error"))
  SplitHostPortFails := fun h => h.count 58 ≠ 1
  DialTimeout := fun network address =>
    if network = bytes "tcp" ∧ address = host ++ bytes ":6379" then
      .ok { incoming := replies, failure := .external (bytes "i/o timeout") }
    else .error (.external (bytes "connection refused"))

/-- A server reached over the Unix socket `path`: `url.Parse` of
`unix://` followed by the path gives the scheme `unix`, an empty host and
the path; the dial of the path opens the connection. -/
def unixServer (path : Str) (replies : List Str) : Env where
  Parse := fun s =>
    if s = bytes "unix://" ++ path then
      .ok { Scheme := bytes "unix", User := none, Host := [], Path := path }
    else .error (.external (bytes "parse error"))
  SplitHostPortFails := fun h => h.count 58 ≠ 1
  DialTimeout := fun network address =>
    if network = bytes "unix" ∧ address = path then
      .ok { incoming := replies, failure := .external (bytes "i/o timeout") }
    else .error (.external (bytes "connection refused"))

/-- A network side on which `url.Parse` fails with the error `err`. -/
def noParse (err : GoError) : Env where
  Parse := fun _ => .error err
  SplitHostPortFails := fun h => h.count 58 ≠ 1
  DialTimeout := fun _ _ => .error (.external (bytes "connection refused"))

/-- A long line for examples: the text `start` followed by `n` bytes `x`. -/
def longLine (start : Str) (n : Nat) : Str := start ++ List.replicate n 120

/-- The tags of the plugin's test. -/
def testTags : Tags := [(bytes "host", bytes "localhost"), (bytes "key", bytes "testkey")]

/-- The reader of the plugin's test: `bufio.NewReader(strings.NewReader(s))`,
a new reader over a source that delivers `s` and then `io.EOF`. -/
def stringReader (s : Str) : bufio.Reader × Conn :=
  (bufio.NewReader, { incoming := [s], failure := .EOF })

/-! ## Properties of strconv -/

namespace strconv

theorem decimal_small {u : Nat} (h : u < 10) : decimal u = [48 + u] := by
  rw [decimal, if_pos h]

theorem decimal_large {u : Nat} (h : ¬ u < 10) :
    decimal u = decimal (u / 10) ++ [48 + u % 10] := by
  rw [decimal, if_neg h]

theorem formatBits_eq_decimal (fuel : Nat) :
    ∀ (u : Nat) (acc : Str), u < fuel → formatBits fuel u acc = decimal u ++ acc := by
  induction fuel with
  | zero => intro u acc h; omega
  | succ fuel ih =>
    intro u acc h
    by_cases hu : u < 10
    · simp [formatBits, hu, decimal_small]
    · have hlt : u / 10 < fuel := by omega
      simp [formatBits, hu, decimal_large, ih _ _ hlt]

theorem FormatUint_eq_decimal (u : Nat) : FormatUint u = decimal u := by
  simp [FormatUint, formatBits_eq_decimal (u + 1) u [] (by omega)]

theorem parseUintLoop_append_digit (s : Str) (d : Nat) (hd : d < 10) :
    ∀ m, parseUintLoop (s ++ [48 + d]) m =
      match parseUintLoop s m with
      | .ok v =>
        if (2 ^ 64 - 1) / 10 + 1 ≤ v then .error .outOfRange
        else if 2 ^ 64 - 1 < v * 10 + d then .error .outOfRange
        else .ok (v * 10 + d)
      | .error e => .error e := by
  induction s with
  | nil =>
    intro m
    have h1 : 48 + d ≤ 57 := by omega
    simp [parseUintLoop, h1]
  | cons c s ih =>
    intro m
    simp only [List.cons_append, parseUintLoop]
    split
    · split
      · rfl
      · split
        · rfl
        · exact ih _
    · rfl

theorem parseUintLoop_decimal (u : Nat) (hu : u < 2 ^ 64) :
    parseUintLoop (decimal u) 0 = .ok u := by
  induction u using Nat.strong_induction_on with
  | _ u ih =>
    by_cases h : u < 10
    · have h1 : 48 + u ≤ 57 := by omega
      have h2 : u ≤ 18446744073709551615 := by omega
      simp [decimal_small h, parseUintLoop, h1, h2]
    · rw [decimal_large h, parseUintLoop_append_digit _ _ (Nat.mod_lt _ (by norm_num)),
        ih (u / 10) (by omega) (by omega)]
      have e : u / 10 * 10 + u % 10 = u := by omega
      have h2 : ¬ ((2 ^ 64 - 1) / 10 + 1 ≤ u / 10) := by
        norm_num at hu ⊢; omega
      have h3 : ¬ (2 ^ 64 - 1 < u / 10 * 10 + u % 10) := by
        rw [e]; norm_num at hu ⊢; omega
      simp only [h2, h3, if_false]
      rw [e]

theorem decimal_ne_nil (u : Nat) : decimal u ≠ [] := by
  by_cases h : u < 10
  · simp [decimal_small h]
  · simp [decimal_large h]

theorem decimal_digits (u : Nat) : ∀ c ∈ decimal u, 48 ≤ c ∧ c ≤ 57 := by
  induction u using Nat.strong_induction_on with
  | _ u ih =>
    by_cases h : u < 10
    · intro c hc
      simp [decimal_small h] at hc
      omega
    · intro c hc
      rw [decimal_large h] at hc
      simp at hc
      rcases hc with hc | hc
      · exact ih (u / 10) (by omega) c hc
      · omega

theorem decimal_length (k : Nat) : ∀ u, u < 10 ^ (k + 1) → (decimal u).length ≤ k + 1 := by
  induction k with
  | zero =>
    intro u hu
    have h : u < 10 := by simpa using hu
    simp [decimal_small h]
  | succ k ih =>
    intro u hu
    by_cases h : u < 10
    · simp [decimal_small h]
    · rw [decimal_large h]
      have : u / 10 < 10 ^ (k + 1) := by
        rw [Nat.div_lt_iff_lt_mul (by norm_num)]
        calc u < 10 ^ (k + 1 + 1) := hu
          _ = 10 ^ (k + 1) * 10 := by ring
      have := ih _ this
      simp
      omega

theorem ParseUint_decimal (u : Nat) (hu : u < 2 ^ 64) : ParseUint (decimal u) = .ok u := by
  have h := decimal_ne_nil u
  simp [ParseUint, h, parseUintLoop_decimal u hu]

/-- Parsing the rendering of a signed 64-bit integer gives it back. -/
theorem ParseInt_FormatInt (n : Int) (hlo : -2 ^ 63 ≤ n) (hhi : n < 2 ^ 63) :
    ParseInt (FormatInt n) = .ok n := by
  by_cases hneg : n < 0
  · have hu : n.natAbs < 2 ^ 64 := by omega
    have hle : ¬ (2 ^ 63 < n.natAbs) := by omega
    have hle2 : ¬ (9223372036854775808 < n.natAbs) := by omega
    have habs : -|n| = n := by rw [abs_of_neg hneg]; omega
    simp [FormatInt, hneg, FormatUint_eq_decimal, ParseInt, ParseUint_decimal _ hu, hle2, habs]
  · have hu : n.natAbs < 2 ^ 64 := by omega
    have hle : ¬ (2 ^ 63 ≤ n.natAbs) := by omega
    obtain ⟨c, rest, hcr⟩ := List.exists_cons_of_ne_nil (decimal_ne_nil n.natAbs)
    have hc := decimal_digits n.natAbs c (by simp [hcr])
    have h43 : c ≠ 43 := by omega
    have h45 : c ≠ 45 := by omega
    simp only [FormatInt, hneg, if_false, FormatUint_eq_decimal]
    rw [hcr]
    simp only [ParseInt, h43, h45, decide_False, Bool.or_self, Bool.false_eq_true, if_false]
    rw [← hcr, ParseUint_decimal _ hu]
    have hle2 : ¬ (9223372036854775808 ≤ n.natAbs) := by omega
    have habs : |n| = n := abs_of_nonneg (by omega)
    simp [hle2, habs]

end strconv

namespace strconv

theorem foldl_digits_mono (s : Str) :
    ∀ a : Nat, a ≤ s.foldl (fun a c => a * 10 + (c - 48)) a := by
  induction s with
  | nil => intro a; simp
  | cons c s ih =>
    intro a
    simp only [List.foldl_cons]
    exact le_trans (by omega) (ih _)

theorem parseUintLoop_ok_iff (s : Str) :
    ∀ m v : Nat, m < 2 ^ 64 → (parseUintLoop s m = .ok v ↔
      (∀ c ∈ s, 48 ≤ c ∧ c ≤ 57) ∧ s.foldl (fun a c => a * 10 + (c - 48)) m = v ∧ v < 2 ^ 64) := by
  induction s with
  | nil =>
    intro m v hm
    simp only [parseUintLoop, Except.ok.injEq, List.not_mem_nil, false_implies, implies_true,
      List.foldl_nil, true_and]
    constructor
    · intro h; subst h; exact ⟨rfl, hm⟩
    · intro h; exact h.1
  | cons c s ih =>
    intro m v hm
    simp only [parseUintLoop, List.foldl_cons, List.mem_cons, forall_eq_or_imp]
    by_cases hc : 48 ≤ c ∧ c ≤ 57
    · have hc1 : (decide (48 ≤ c) && decide (c ≤ 57)) = true := by simp [hc]
      simp only [hc1, if_true]
      by_cases hcut : (2 ^ 64 - 1) / 10 + 1 ≤ m
      · simp only [hcut, if_true]
        constructor
        · intro h; cases h
        · rintro ⟨-, hv, hlt⟩
          have := foldl_digits_mono s (m * 10 + (c - 48))
          norm_num at hcut hlt
          omega
      · simp only [hcut, if_false]
        by_cases hov : 2 ^ 64 - 1 < m * 10 + (c - 48)
        · simp only [hov, if_true]
          constructor
          · intro h; cases h
          · rintro ⟨-, hv, hlt⟩
            have := foldl_digits_mono s (m * 10 + (c - 48))
            norm_num at hov hlt
            omega
        · simp only [hov, if_false]
          rw [ih _ v (by norm_num at hov ⊢; omega)]
          simp [hc]
    · have hc1 : (decide (48 ≤ c) && decide (c ≤ 57)) = false := by
        simp only [Bool.and_eq_false_iff, decide_eq_false_iff_not]
        omega
      simp only [hc1]
      constructor
      · intro h; cases h
      · rintro ⟨⟨h1, -⟩, -⟩; exact absurd h1 hc

theorem ParseUint_ok_iff (s : Str) (v : Nat) :
    ParseUint s = .ok v ↔
      s ≠ [] ∧ (∀ c ∈ s, 48 ≤ c ∧ c ≤ 57) ∧ decimalValue s = v ∧ v < 2 ^ 64 := by
  unfold ParseUint decimalValue
  cases s with
  | nil => simp
  | cons c s =>
    simp only [List.isEmpty_cons, Bool.false_eq_true, if_false, ne_eq, reduceCtorEq,
      not_false_eq_true, true_and]
    exact parseUintLoop_ok_iff (c :: s) 0 v (by norm_num)

theorem ParseInt_of_ParseUint_error {c : Nat} {rest : Str} {e : NumError}
    (h : ParseUint (if c = 43 ∨ c = 45 then rest else c :: rest) = .error e) :
    ParseInt (c :: rest) = .error e := by
  cases e <;> simp [ParseInt, h]

/-- The texts `ParseInt` accepts are the texts of signed 64-bit integers. -/
theorem ParseInt_ok_iff (s : Str) : (∃ v, ParseInt s = .ok v) ↔ IsInt64Text s := by
  constructor
  · rintro ⟨v, hv⟩
    cases s with
    | nil => simp [ParseInt] at hv
    | cons c rest =>
      cases hu : ParseUint (if c = 43 ∨ c = 45 then rest else c :: rest) with
      | error e => rw [ParseInt_of_ParseUint_error hu] at hv; cases hv
      | ok un =>
        obtain ⟨hne, hdig, hval, -⟩ := (ParseUint_ok_iff _ un).1 hu
        simp only [ParseInt, Bool.or_eq_true, decide_eq_true_eq, hu] at hv
        by_cases h45 : c = 45
        · subst h45
          simp only [or_true, if_true] at hne hdig hval
          refine ⟨[45], rest, rfl, Or.inr (Or.inr rfl), hne, hdig, ?_⟩
          rw [if_pos rfl, hval]
          by_contra hgt
          have : 9223372036854775808 < un := by norm_num at hgt; omega
          simp [this] at hv
        · by_cases h43 : c = 43
          · subst h43
            simp only [true_or, if_true] at hne hdig hval
            refine ⟨[43], rest, rfl, Or.inr (Or.inl rfl), hne, hdig, ?_⟩
            rw [if_neg (by decide), hval]
            by_contra hgt
            have : 9223372036854775808 ≤ un := by norm_num at hgt; omega
            simp [this] at hv
          · simp only [h43, h45, or_self, if_false] at hne hdig hval
            refine ⟨[], c :: rest, rfl, Or.inl rfl, hne, hdig, ?_⟩
            rw [if_neg (by decide), hval]
            by_contra hgt
            have : 9223372036854775808 ≤ un := by norm_num at hgt; omega
            simp [h45, this] at hv
  · rintro ⟨sign, ds, rfl, hsign, hne, hdig, hval⟩
    obtain ⟨d, ds', rfl⟩ := List.exists_cons_of_ne_nil hne
    have hd := hdig d (by simp)
    rcases hsign with rfl | rfl | rfl
    · have h43 : d ≠ 43 := by omega
      have h45 : d ≠ 45 := by omega
      rw [if_neg (by decide)] at hval
      have hu : ParseUint (d :: ds') = .ok (decimalValue (d :: ds')) :=
        (ParseUint_ok_iff _ _).2 ⟨by simp, hdig, rfl, by omega⟩
      have : ¬ (9223372036854775808 ≤ decimalValue (d :: ds')) := by norm_num at hval; omega
      exact ⟨(decimalValue (d :: ds') : Int), by simp [ParseInt, h43, h45, hu, this]⟩
    · rw [if_neg (by decide)] at hval
      have hu : ParseUint (d :: ds') = .ok (decimalValue (d :: ds')) :=
        (ParseUint_ok_iff _ _).2 ⟨by simp, hdig, rfl, by omega⟩
      have : ¬ (9223372036854775808 ≤ decimalValue (d :: ds')) := by norm_num at hval; omega
      exact ⟨(decimalValue (d :: ds') : Int), by simp [ParseInt, hu, this]⟩
    · rw [if_pos rfl] at hval
      have hu : ParseUint (d :: ds') = .ok (decimalValue (d :: ds')) :=
        (ParseUint_ok_iff _ _).2 ⟨by simp, hdig, rfl, by omega⟩
      have : ¬ (9223372036854775808 < decimalValue (d :: ds')) := by norm_num at hval; omega
      exact ⟨-(decimalValue (d :: ds') : Int), by simp [ParseInt, hu, this]⟩

end strconv

/-! ## Properties of the string functions -/

namespace strings

theorem Contains_iff_occurs (sub : Str) : ∀ s : Str, Contains s sub = true ↔ sub <:+: s := by
  intro s
  induction s with
  | nil =>
    cases sub <;> simp [Contains]
  | cons c s ih =>
    rw [Contains, Bool.or_eq_true, ih, List.infix_cons_iff, List.isPrefixOf_iff_prefix]

theorem mem_of_Contains {s sub : Str} (h : Contains s sub = true) : ∀ b ∈ sub, b ∈ s :=
  fun _ hb => ((Contains_iff_occurs sub s).1 h).subset hb

end strings

namespace regexp

end regexp

theorem readArrivals_data (f : GoError) (cap : Nat) (hcap : 0 < cap) :
    ∀ cs : List Str, cs.flatten ≠ [] →
      ∃ p rest, readArrivals f cs cap = (.data p, rest) ∧ p ≠ [] ∧ p.length ≤ cap ∧
        p ++ rest.flatten = cs.flatten := by
  intro cs
  induction cs with
  | nil => intro h; simp at h
  | cons chunk cs ih =>
    intro h
    cases chunk with
    | nil =>
      simp only [List.flatten_cons, List.nil_append] at h ⊢
      simpa [readArrivals] using ih h
    | cons b chunk =>
      by_cases hlen : (b :: chunk).length ≤ cap
      · exact ⟨b :: chunk, cs, by simp only [readArrivals, hlen, if_true], by simp, hlen, by simp⟩
      · refine ⟨(b :: chunk).take cap, (b :: chunk).drop cap :: cs,
          by simp only [readArrivals, hlen, if_false], ?_, ?_, ?_⟩
        · cases cap with
          | zero => omega
          | succ k => simp
        · simp only [List.length_take]; omega
        · simp only [List.flatten_cons, ← List.append_assoc, List.take_append_drop]

theorem readArrivals_err (f : GoError) (cap : Nat) :
    ∀ cs : List Str, cs.flatten = [] → readArrivals f cs cap = (.err f, []) := by
  intro cs
  induction cs with
  | nil => intro _; rfl
  | cons chunk cs ih =>
    intro h
    simp only [List.flatten_cons, List.append_eq_nil] at h
    obtain ⟨rfl, h2⟩ := h
    simpa [readArrivals] using ih h2

theorem Conn.Read_arrival (c : Conn) (cap : Nat) (hcap : 0 < cap) (h : c.stream ≠ []) :
    ∃ p c1, c.Read cap = (.data p, c1) ∧ p ≠ [] ∧ p.length ≤ cap ∧
      p ++ c1.stream = c.stream ∧ c1.failure = c.failure := by
  obtain ⟨p, rest, he, hp, hl, hj⟩ := readArrivals_data c.failure cap hcap c.incoming h
  exact ⟨p, { c with incoming := rest }, by simp [Conn.Read, he], hp, hl, hj, rfl⟩

theorem Conn.Read_failure (c : Conn) (cap : Nat) (h : c.stream = []) :
    ∃ c1, c.Read cap = (.err c.failure, c1) ∧ c1.stream = [] ∧ c1.failure = c.failure := by
  have he := readArrivals_err c.failure cap c.incoming h
  exact ⟨{ c with incoming := [] }, by simp [Conn.Read, he], rfl, rfl⟩

namespace bufio

theorem Reader.Read_data (r : Reader) (c : Conn) (cap : Nat) (hcap : 0 < cap)
    (herr : r.err = none) (h : r.buf ++ c.stream ≠ []) :
    ∃ p r1 c1, r.Read c cap = (.data p, r1, c1) ∧ p ≠ [] ∧ p.length ≤ cap ∧ r1.err = none ∧
      p ++ (r1.buf ++ c1.stream) = r.buf ++ c.stream ∧ c1.failure = c.failure := by
  by_cases hb : r.buf = []
  · have hs : c.stream ≠ [] := by simpa [hb] using h
    by_cases hbig : defaultBufSize ≤ cap
    · obtain ⟨p, c1, he, hp, hl, hj, hf⟩ := c.Read_arrival cap hcap hs
      exact ⟨p, r, c1, by simp [Reader.Read, hb, herr, hbig, he], hp, hl, herr,
        by simp [hb, hj], hf⟩
    · obtain ⟨p, c1, he, hp, hl, hj, hf⟩ := c.Read_arrival defaultBufSize (by decide) hs
      refine ⟨p.take cap, { r with buf := p.drop cap }, c1,
        by simp [Reader.Read, hb, herr, hbig, he], ?_, ?_, herr, ?_, hf⟩
      · cases p with
        | nil => exact absurd rfl hp
        | cons x p =>
          cases cap with
          | zero => omega
          | succ k => simp
      · simp only [List.length_take]; omega
      · simp only [hb, List.nil_append, ← List.append_assoc, List.take_append_drop, hj]
  · refine ⟨r.buf.take cap, { r with buf := r.buf.drop cap }, c,
      by simp [Reader.Read, hb], ?_, ?_, herr, ?_, rfl⟩
    · cases hr : r.buf with
      | nil => exact absurd hr hb
      | cons x p =>
        cases cap with
        | zero => omega
        | succ k => simp
    · simp only [List.length_take]; omega
    · simp only [← List.append_assoc, List.take_append_drop]

theorem Reader.Read_err (r : Reader) (c : Conn) (cap : Nat)
    (herr : r.err = none) (h : r.buf ++ c.stream = []) :
    ∃ r1 c1, r.Read c cap = (.err c.failure, r1, c1) := by
  simp only [List.append_eq_nil] at h
  obtain ⟨hb, hs⟩ := h
  by_cases hbig : defaultBufSize ≤ cap
  · obtain ⟨c1, he, -, -⟩ := c.Read_failure cap hs
    exact ⟨r, c1, by simp [Reader.Read, hb, herr, hbig, he]⟩
  · obtain ⟨c1, he, -, -⟩ := c.Read_failure defaultBufSize hs
    exact ⟨r, c1, by simp [Reader.Read, hb, herr, hbig, he]⟩

theorem beforeNewline_none {s : Str} (h : 10 ∉ s) : beforeNewline s = none := by
  induction s with
  | nil => rfl
  | cons c s ih =>
    have hc : c ≠ 10 := fun e => h (by simp [e])
    have hs : 10 ∉ s := fun e => h (by simp [e])
    simp [beforeNewline, hc, ih hs]

theorem beforeNewline_line {line : Str} (h : 10 ∉ line) (rest : Str) :
    beforeNewline (line ++ 10 :: rest) = some line := by
  induction line with
  | nil => simp [beforeNewline]
  | cons c s ih =>
    have hc : c ≠ 10 := fun e => h (by simp [e])
    have hs : 10 ∉ s := fun e => h (by simp [e])
    simp [beforeNewline, hc, ih hs]

theorem ScanLines_more {buf : Str} (h : 10 ∉ buf) : ScanLines buf false = none := by
  simp [ScanLines, beforeNewline_none h]

theorem ScanLines_line {line : Str} (h : 10 ∉ line) (rest : Str) (atEOF : Bool) :
    ScanLines (line ++ 10 :: rest) atEOF = some (dropCR line) := by
  simp [ScanLines, beforeNewline_line h]

theorem ScanLines_final {buf : Str} (h : 10 ∉ buf) (hne : buf ≠ []) :
    ScanLines buf true = some (dropCR buf) := by
  simp [ScanLines, beforeNewline_none h, hne]

/-- The buffer size the scanner reads with leaves room for at least one
byte, as long as the data held is below the largest token size. -/
theorem scan_room {buf : Str} {cap : Nat} (hcap : buf.length ≤ cap)
    (hlen : buf.length < MaxScanTokenSize) :
    buf.length < (if buf.length = cap then
        (if cap * 2 = 0 then startBufSize else min (cap * 2) MaxScanTokenSize)
      else cap) := by
  simp only [MaxScanTokenSize, startBufSize] at *
  split
  · split <;> omega
  · omega

/-- One round of the scan loop that has to read: the data held has no
newline, is below the largest token size, and more data is to come. -/
theorem scanLoop_step (fuel : Nat) (r : Reader) (c : Conn) (buf : Str) (cap : Nat)
    (herr : r.err = none) (hcap : buf.length ≤ cap) (hbuf : 10 ∉ buf)
    (hbl : buf.length < MaxScanTokenSize) (hne : r.buf ++ c.stream ≠ []) :
    ∃ p r1 c1 cap1, scanLoop (fuel + 1) r c buf cap none = scanLoop fuel r1 c1 (buf ++ p) cap1 none ∧
      1 ≤ p.length ∧ (buf ++ p).length ≤ cap1 ∧ r1.err = none ∧
      p ++ (r1.buf ++ c1.stream) = r.buf ++ c.stream ∧ c1.failure = c.failure ∧
      (cap ≤ MaxScanTokenSize → cap1 ≤ MaxScanTokenSize) := by
  have hroom := scan_room hcap hbl
  have hlong : ¬ (buf.length = cap ∧ MaxScanTokenSize ≤ cap) := by
    rintro ⟨h1, h2⟩; omega
  obtain ⟨p, r1, c1, he, hp, hpl, herr1, hj, hfail⟩ :=
    Reader.Read_data r c _ (Nat.sub_pos_of_lt hroom) herr hne
  refine ⟨p, r1, c1, (if buf.length = cap then
      (if cap * 2 = 0 then startBufSize else min (cap * 2) MaxScanTokenSize) else cap),
    ?_, List.length_pos.2 hp, ?_, herr1, hj, hfail, ?_⟩
  · rw [scanLoop]
    simp only [Option.isSome_none, Bool.or_false, ScanLines_more hbuf, ite_self, hlong,
      if_false, he]
  · simp only [List.length_append]; omega
  · intro hmax
    simp only [MaxScanTokenSize, startBufSize] at hmax ⊢
    split
    · split <;> omega
    · exact hmax

/-- The first scan finds the first line of the data the reader will
deliver, however the data arrives, when the line is shorter than the
largest token. -/
theorem scanLoop_line (line rest : Str) (hline : 10 ∉ line)
    (hlen : line.length < MaxScanTokenSize) :
    ∀ (fuel : Nat) (r : Reader) (c : Conn) (buf : Str) (cap : Nat),
      r.err = none → buf.length ≤ cap →
      buf ++ (r.buf ++ c.stream) = line ++ 10 :: rest →
      (r.buf ++ c.stream).length + 1 ≤ fuel →
      ∃ r1 c1, scanLoop fuel r c buf cap none = (.token (dropCR line), r1, c1) := by
  intro fuel
  induction fuel with
  | zero => intro r c buf cap _ _ _ hf; omega
  | succ fuel ih =>
    intro r c buf cap herr hcap heq hf
    by_cases hbuf : 10 ∈ buf
    · -- the newline is in the data held
      rcases List.append_eq_append_iff.1 heq with ⟨a, ha, -⟩ | ⟨b, hb, hrest⟩
      · exact absurd (by rw [ha]; simp [hbuf]) hline
      · cases b with
        | nil => rw [hb] at hbuf; simp at hbuf; exact absurd hbuf hline
        | cons x b =>
          simp only [List.cons_append, List.cons.injEq] at hrest
          obtain ⟨rfl, -⟩ := hrest
          subst hb
          refine ⟨r, c, ?_⟩
          rw [scanLoop]
          simp [ScanLines_line hline]
    · -- the data held is still inside the line
      have hbl : buf.length ≤ line.length := by
        rcases List.append_eq_append_iff.1 heq with ⟨a, ha, -⟩ | ⟨b, hb, hrest⟩
        · rw [ha]; simp
        · cases b with
          | nil => simp [hb]
          | cons x b =>
            simp only [List.cons_append, List.cons.injEq] at hrest
            exact absurd (by rw [hb, ← hrest.1]; simp) hbuf
      have hne : r.buf ++ c.stream ≠ [] := by
        intro h0
        rw [h0, List.append_nil] at heq
        exact hbuf (by rw [heq]; simp)
      obtain ⟨p, r1, c1, cap1, hstep, hp1, hcap1, herr1, hj, -⟩ :=
        scanLoop_step fuel r c buf cap herr hcap hbuf (lt_of_le_of_lt hbl hlen) hne
      have hl : (r1.buf ++ c1.stream).length + 1 ≤ fuel := by
        have := congrArg List.length hj
        simp only [List.length_append] at this hf ⊢
        omega
      obtain ⟨r2, c2, h2⟩ := ih r1 c1 (buf ++ p) cap1 herr1 hcap1
        (by rw [List.append_assoc, hj, heq]) hl
      exact ⟨r2, c2, by rw [hstep, h2]⟩

/-- When the data ends without a newline, the first scan gives what there
is as the last line, or stops when there is nothing. -/
theorem scanLoop_end :
    ∀ (fuel : Nat) (r : Reader) (c : Conn) (buf : Str) (cap : Nat),
      r.err = none → buf.length ≤ cap →
      10 ∉ buf ++ (r.buf ++ c.stream) →
      (buf ++ (r.buf ++ c.stream)).length < MaxScanTokenSize →
      (r.buf ++ c.stream).length + 2 ≤ fuel →
      ∃ r1 c1, scanLoop fuel r c buf cap none =
        (if buf ++ (r.buf ++ c.stream) = [] then
            .stop (if c.failure = .EOF then none else some c.failure)
          else .token (dropCR (buf ++ (r.buf ++ c.stream))), r1, c1) := by
  intro fuel
  induction fuel with
  | zero => intro r c buf cap _ _ _ _ hf; omega
  | succ fuel ih =>
    intro r c buf cap herr hcap hnl hlen hf
    have hbuf : 10 ∉ buf := fun h => hnl (by simp [h])
    have hbl : buf.length < MaxScanTokenSize := by
      simp only [List.length_append] at hlen; omega
    by_cases hne : r.buf ++ c.stream = []
    · -- nothing more comes: the read fails, and the next round ends the scan
      have hlong : ¬ (buf.length = cap ∧ MaxScanTokenSize ≤ cap) := by
        rintro ⟨h1, h2⟩; omega
      obtain ⟨r1, c1, he⟩ := Reader.Read_err r c
        ((if buf.length = cap then
          (if cap * 2 = 0 then startBufSize else min (cap * 2) MaxScanTokenSize)
          else cap) - buf.length) herr hne
      obtain ⟨k, rfl⟩ : ∃ k, fuel = k + 1 := ⟨fuel - 1, by omega⟩
      refine ⟨r1, c1, ?_⟩
      rw [scanLoop]
      simp only [Option.isSome_none, Bool.or_false, ScanLines_more hbuf, ite_self, hlong,
        if_false, he, hne, List.append_nil]
      rw [scanLoop]
      by_cases hb : buf = []
      · simp [hb, ScanLines]
      · simp [hb, ScanLines_final hbuf hb]
    · obtain ⟨p, r1, c1, cap1, hstep, hp1, hcap1, herr1, hj, hfail, -⟩ :=
        scanLoop_step fuel r c buf cap herr hcap hbuf hbl hne
      have hl : (r1.buf ++ c1.stream).length + 2 ≤ fuel := by
        have := congrArg List.length hj
        simp only [List.length_append] at this hf ⊢
        omega
      have hall : (buf ++ p) ++ (r1.buf ++ c1.stream) = buf ++ (r.buf ++ c.stream) := by
        rw [List.append_assoc, hj]
      obtain ⟨r2, c2, h2⟩ := ih r1 c1 (buf ++ p) cap1 herr1 hcap1
        (by rw [hall]; exact hnl) (by rw [hall]; exact hlen) hl
      exact ⟨r2, c2, by rw [hstep, h2, hall, hfail]⟩

/-- When the data to come starts with `MaxScanTokenSize` bytes or more
without a newline, the first scan fills its largest buffer and stops with
`ErrTooLong`, however the data arrives. -/
theorem scanLoop_too_long (pre rest : Str) (hpre : 10 ∉ pre)
    (hlen : MaxScanTokenSize ≤ pre.length) :
    ∀ (fuel : Nat) (r : Reader) (c : Conn) (buf : Str) (cap : Nat),
      r.err = none → buf.length ≤ cap → cap ≤ MaxScanTokenSize →
      buf ++ (r.buf ++ c.stream) = pre ++ rest →
      (r.buf ++ c.stream).length + 1 ≤ fuel →
      ∃ r1 c1, scanLoop fuel r c buf cap none = (.stop (some .ErrTooLong), r1, c1) := by
  intro fuel
  induction fuel with
  | zero => intro r c buf cap _ _ _ _ hf; omega
  | succ fuel ih =>
    intro r c buf cap herr hcap hmax heq hf
    have hbp : buf.length ≤ pre.length := by omega
    have hbuf : 10 ∉ buf := by
      intro h
      have e : buf = (buf ++ (r.buf ++ c.stream)).take buf.length := by simp
      rw [heq, List.take_append_of_le_length hbp] at e
      rw [e] at h
      exact hpre (List.mem_of_mem_take h)
    by_cases hfull : buf.length = cap ∧ MaxScanTokenSize ≤ cap
    · refine ⟨r, c, ?_⟩
      rw [scanLoop]
      simp only [Option.isSome_none, Bool.or_false, ScanLines_more hbuf, ite_self, hfull,
        and_self, if_true]
    · have hbl : buf.length < MaxScanTokenSize := by
        by_contra hge
        exact hfull ⟨by omega, by omega⟩
      have hne : r.buf ++ c.stream ≠ [] := by
        intro h0
        have := congrArg List.length heq
        rw [h0] at this
        simp only [List.append_nil, List.length_append] at this
        omega
      obtain ⟨p, r1, c1, cap1, hstep, hp1, hcap1, herr1, hj, -, hmax1⟩ :=
        scanLoop_step fuel r c buf cap herr hcap hbuf hbl hne
      have hl : (r1.buf ++ c1.stream).length + 1 ≤ fuel := by
        have := congrArg List.length hj
        simp only [List.length_append] at this hf ⊢
        omega
      obtain ⟨r2, c2, h2⟩ := ih r1 c1 (buf ++ p) cap1 herr1 hcap1 (hmax1 hmax)
        (by rw [List.append_assoc, hj, heq]) hl
      exact ⟨r2, c2, by rw [hstep, h2]⟩

theorem Scan_line (r : Reader) (c : Conn) (herr : r.err = none) (line rest : Str)
    (hline : 10 ∉ line) (hlen : line.length < MaxScanTokenSize)
    (heq : r.buf ++ c.stream = line ++ 10 :: rest) :
    ∃ r1 c1, Scan r c = (.token (dropCR line), r1, c1) := by
  apply scanLoop_line line rest hline hlen _ r c [] 0 herr (by simp) (by simpa using heq)
  simp only [List.length_append, Conn.pending]
  omega

theorem Scan_end (r : Reader) (c : Conn) (herr : r.err = none)
    (hnl : 10 ∉ r.buf ++ c.stream) (hlen : (r.buf ++ c.stream).length < MaxScanTokenSize) :
    ∃ r1 c1, Scan r c =
      (if r.buf ++ c.stream = [] then .stop (if c.failure = .EOF then none else some c.failure)
        else .token (dropCR (r.buf ++ c.stream)), r1, c1) := by
  have := scanLoop_end (r.buf.length + c.pending + 3) r c [] 0 herr (by simp)
    (by simpa using hnl) (by simpa using hlen)
    (by simp only [List.length_append, Conn.pending]; omega)
  simpa using this

theorem Scan_too_long (r : Reader) (c : Conn) (herr : r.err = none) (pre rest : Str)
    (hpre : 10 ∉ pre) (hlen : MaxScanTokenSize ≤ pre.length)
    (heq : r.buf ++ c.stream = pre ++ rest) :
    ∃ r1 c1, Scan r c = (.stop (some .ErrTooLong), r1, c1) := by
  apply scanLoop_too_long pre rest hpre hlen _ r c [] 0 herr (by simp) (by decide)
    (by simpa using heq)
  simp only [List.length_append, Conn.pending]
  omega

end bufio

/-! ## What `gatherQueueOutput` does with the line it scans -/

namespace bufio

theorem dropCR_of_last {text : Str} (h : text.getLast? ≠ some 13) : dropCR text = text := by
  simp [dropCR, h]

theorem dropCR_append_CR (text : Str) : dropCR (text ++ [13]) = text := by
  simp [dropCR]

/-- A reply that is one line `text`, alone or ended by `\n` or `\r\n`, is
scanned as `text`, however its bytes arrive. -/
theorem Scan_reply (r : Reader) (c : Conn) (herr : r.err = none) (text term : Str)
    (hterm : term = [] ∨ term = bytes "\n" ∨ term = bytes "\r\n")
    (htext : text ≠ []) (hnl : 10 ∉ text) (hcr : text.getLast? ≠ some 13)
    (hlen : text.length + 1 < MaxScanTokenSize)
    (heq : r.buf ++ c.stream = text ++ term) :
    ∃ r1 c1, Scan r c = (.token text, r1, c1) := by
  have e1 : bytes "\n" = [10] := by decide
  have e2 : bytes "\r\n" = [13, 10] := by decide
  rcases hterm with rfl | rfl | rfl
  · rw [List.append_nil] at heq
    obtain ⟨r1, c1, h⟩ := Scan_end r c herr (by rw [heq]; exact hnl)
      (by rw [heq]; omega)
    refine ⟨r1, c1, ?_⟩
    rw [h, heq, if_neg htext, dropCR_of_last hcr]
  · rw [e1] at heq
    obtain ⟨r1, c1, h⟩ := Scan_line r c herr text [] hnl (by omega) heq
    exact ⟨r1, c1, by rw [h, dropCR_of_last hcr]⟩
  · rw [e2] at heq
    have hnl2 : 10 ∉ text ++ [13] := by simp [hnl]
    obtain ⟨r1, c1, h⟩ := Scan_line r c herr (text ++ [13]) [] hnl2
      (by simp only [List.length_append, List.length_singleton]; omega) (by simpa using heq)
    exact ⟨r1, c1, by rw [h, dropCR_append_CR]⟩

/-- A reply that begins with `\n` or `\r\n` is scanned as the empty line. -/
theorem Scan_empty_line (r : Reader) (c : Conn) (herr : r.err = none) (term rest : Str)
    (hterm : term = bytes "\n" ∨ term = bytes "\r\n")
    (heq : r.buf ++ c.stream = term ++ rest) :
    ∃ r1 c1, Scan r c = (.token [], r1, c1) := by
  have e1 : bytes "\n" = [10] := by decide
  have e2 : bytes "\r\n" = [13, 10] := by decide
  rcases hterm with rfl | rfl
  · rw [e1] at heq
    obtain ⟨r1, c1, h⟩ := Scan_line r c herr [] rest (by simp) (by decide) (by simpa using heq)
    exact ⟨r1, c1, by rw [h]; rfl⟩
  · rw [e2] at heq
    obtain ⟨r1, c1, h⟩ := Scan_line r c herr [13] rest (by simp) (by decide) (by simpa using heq)
    exact ⟨r1, c1, by rw [h]; rfl⟩

/-- Dropping the carriage return of a line keeps every occurrence of a
text that does not end in a carriage return. -/
theorem occurs_dropCR {sub raw : Str} (hsub : sub.getLast? ≠ some 13) (hne : sub ≠ [])
    (h : sub <:+: raw) : sub <:+: dropCR raw := by
  unfold dropCR
  split
  · rename_i hlast
    obtain ⟨ys, rfl⟩ := List.getLast?_eq_some_iff.1 hlast
    rw [List.dropLast_concat]
    obtain ⟨s, t, hst⟩ := h
    rcases List.eq_nil_or_concat t with rfl | ⟨t1, b, rfl⟩
    · exfalso
      rw [List.append_nil] at hst
      have hl := congrArg List.getLast? hst
      rw [List.getLast?_append, List.getLast?_concat] at hl
      cases hs : sub.getLast? with
      | none => exact hne (List.getLast?_eq_none_iff.1 hs)
      | some x =>
        rw [hs] at hl
        simp [Option.or] at hl
        exact hsub (by rw [hs, hl])
    · rw [List.concat_eq_append, ← List.append_assoc] at hst
      have := (List.append_inj' hst rfl).1
      exact ⟨s, t1, this⟩
  · exact h

theorem dropCR_ne_nil {raw : Str} (h : dropCR raw ≠ []) : raw ≠ [] := by
  intro h0
  rw [h0] at h
  exact h rfl

/-- A reply whose first line is `raw` (with its carriage return, if it has
one), ended by a newline or by the end of the data, is scanned as `raw`
without its carriage return when `raw` is below the largest token size,
however the bytes arrive. -/
theorem Scan_raw_line (r : Reader) (c : Conn) (herr : r.err = none) (raw rest : Str)
    (hne : raw ≠ []) (hnl : 10 ∉ raw) (hlen : raw.length < MaxScanTokenSize)
    (heq : r.buf ++ c.stream = raw ∨ r.buf ++ c.stream = raw ++ 10 :: rest) :
    ∃ r1 c1, Scan r c = (.token (dropCR raw), r1, c1) := by
  rcases heq with heq | heq
  · obtain ⟨r1, c1, h⟩ := Scan_end r c herr (by rw [heq]; exact hnl) (by rw [heq]; exact hlen)
    exact ⟨r1, c1, by rw [h, heq, if_neg hne]⟩
  · exact Scan_line r c herr raw rest hnl hlen heq

end bufio

theorem gatherQueueOutput_of_stop {rdr rdr1 : bufio.Reader} {c c1 : Conn}
    {err : Option GoError} (acc : Accumulator) (tags : Tags)
    (hscan : bufio.Scan rdr c = (.stop err, rdr1, c1)) :
    gatherQueueOutput rdr c acc tags = (err, rdr1, c1, acc) := by
  simp [gatherQueueOutput, hscan]

theorem gatherQueueOutput_of_ERR {rdr rdr1 : bufio.Reader} {c c1 : Conn} {line : Str}
    (acc : Accumulator) (tags : Tags)
    (hscan : bufio.Scan rdr c = (.token line, rdr1, c1))
    (h : strings.Contains line (bytes "ERR") = true) :
    gatherQueueOutput rdr c acc tags = (some .ErrProtocolError, rdr1, c1, acc) := by
  simp [gatherQueueOutput, hscan, h]

theorem gatherQueueOutput_of_empty {rdr rdr1 : bufio.Reader} {c c1 : Conn}
    (acc : Accumulator) (tags : Tags)
    (hscan : bufio.Scan rdr c = (.token [], rdr1, c1)) :
    gatherQueueOutput rdr c acc tags = (some .ErrProtocolError, rdr1, c1, acc) := by
  simp [gatherQueueOutput, hscan]

theorem gatherQueueOutput_of_integer {rdr rdr1 : bufio.Reader} {c c1 : Conn} {text : Str}
    {n : Int} (acc : Accumulator) (tags : Tags)
    (hscan : bufio.Scan rdr c = (.token (58 :: text), rdr1, c1))
    (h : strings.Contains (58 :: text) (bytes "ERR") = false)
    (hn : strconv.ParseInt text = .ok n) :
    gatherQueueOutput rdr c acc tags =
      (none, rdr1, c1, acc ++ [.AddFields (bytes "redis_mq") [(bytes "length", n)] tags]) := by
  simp [gatherQueueOutput, hscan, h, hn]

theorem gatherQueueOutput_of_other {rdr rdr1 : bufio.Reader} {c c1 : Conn} {line : Str}
    (acc : Accumulator) (tags : Tags)
    (hscan : bufio.Scan rdr c = (.token line, rdr1, c1))
    (hne : line ≠ [])
    (h : strings.Contains line (bytes "ERR") = false)
    (hint : line.head? ≠ some 58 ∨ ∀ n, strconv.ParseInt (line.drop 1) ≠ .ok n) :
    gatherQueueOutput rdr c acc tags =
      (none, rdr1, c1, acc ++ [.AddFields (bytes "redis_mq") [] tags]) := by
  have hl : line.length ≠ 0 := by simpa using hne
  rcases hint with h1 | h2
  · simp [gatherQueueOutput, hscan, h, hl, h1]
  · simp only [gatherQueueOutput, hscan, h, Bool.false_eq_true, if_false, hl]
    cases hp : strconv.ParseInt (line.drop 1) with
    | ok n => exact absurd hp (h2 n)
    | error e => simp

/-- The rendering of an integer holds digits and at most a leading `-`. -/
theorem FormatInt_bytes (n : Int) : ∀ b ∈ strconv.FormatInt n, b = 45 ∨ (48 ≤ b ∧ b ≤ 57) := by
  intro b hb
  unfold strconv.FormatInt at hb
  rw [strconv.FormatUint_eq_decimal] at hb
  split at hb
  · rcases List.mem_cons.1 hb with h | h
    · exact Or.inl h
    · exact Or.inr (strconv.decimal_digits _ b h)
  · exact Or.inr (strconv.decimal_digits _ b hb)

theorem FormatInt_length (n : Int) (hlo : -2 ^ 63 ≤ n) (hhi : n < 2 ^ 63) :
    (strconv.FormatInt n).length ≤ 21 := by
  have h := strconv.decimal_length 19 n.natAbs (by omega)
  unfold strconv.FormatInt
  rw [strconv.FormatUint_eq_decimal]
  split
  · simp only [List.length_cons]; omega
  · omega

/-! ## What a group can add to the accumulator -/

theorem gatherQueueOutput_adds (rdr : bufio.Reader) (c : Conn) (acc : Accumulator) (tags : Tags) :
    (gatherQueueOutput rdr c acc tags).2.2.2 = acc ∨
    ∃ fields, (gatherQueueOutput rdr c acc tags).2.2.2 =
      acc ++ [.AddFields (bytes "redis_mq") fields tags] := by
  unfold gatherQueueOutput
  split
  · exact Or.inl rfl
  · split
    · exact Or.inl rfl
    · split
      · exact Or.inl rfl
      · exact Or.inr ⟨_, rfl⟩

/-- The loop over the keys adds at most one call for each key, and only
measurements. -/
theorem measureKeys_adds (host : Str) (db : Int) :
    ∀ (keys : List Str) (rdr : bufio.Reader) (c : Conn) (acc : Accumulator),
      ∃ added, (measureKeys host db keys rdr c acc).2 = acc ++ added ∧
        added.length ≤ keys.length ∧ ∀ x ∈ added, x.isMeasurement = true := by
  intro keys
  induction keys with
  | nil => intro rdr c acc; exact ⟨[], by simp [measureKeys], by simp, by simp⟩
  | cons key keys ih =>
    intro rdr c acc
    simp only [measureKeys]
    generalize hout : gatherQueueOutput rdr
      (c.Write (bytes "LLEN " ++ key ++ bytes "\r\n")) acc (keyTags host db key) = out
    obtain ⟨e, rdr2, c2, acc2⟩ := out
    have hadd := gatherQueueOutput_adds rdr
      (c.Write (bytes "LLEN " ++ key ++ bytes "\r\n")) acc (keyTags host db key)
    rw [hout] at hadd
    simp only at hadd
    obtain ⟨added, h1, h2, h3⟩ := ih rdr2 c2 acc2
    rcases hadd with h | ⟨fields, h⟩
    · subst h
      exact ⟨added, h1, by simp only [List.length_cons]; omega, h3⟩
    · subst h
      refine ⟨.AddFields (bytes "redis_mq") fields (keyTags host db key) :: added,
        by rw [h1]; simp, by simp only [List.length_cons]; omega, ?_⟩
      intro x hx
      rcases List.mem_cons.1 hx with rfl | hx
      · rfl
      · exact h3 x hx

theorem filter_isError_measurements {added : List AccCall}
    (h : ∀ x ∈ added, x.isMeasurement = true) : added.filter AccCall.isError = [] := by
  rw [List.filter_eq_nil_iff]
  intro x hx
  have := h x hx
  cases x with
  | AddFields m f t => simp [AccCall.isError]
  | AddError e => simp [AccCall.isMeasurement] at this

theorem filter_isMeasurement_length {added : List AccCall} :
    (added.filter AccCall.isMeasurement).length ≤ added.length :=
  List.length_filter_le _ _

/-- On an open connection the session changes the accumulator only in the
loop over the keys. -/
theorem session_adds (u : URL) (queue : Queue) (c : Conn) (acc : Accumulator) :
    ∃ added, (session u queue c acc).2.2 = acc ++ added ∧
      added.length ≤ queue.Keys.length ∧ ∀ x ∈ added, x.isMeasurement = true := by
  simp only [session]
  split
  · exact ⟨[], by simp, by simp, by simp⟩
  · split
    · exact ⟨[], by simp, by simp, by simp⟩
    · rename_i rdr c3 _
      obtain ⟨added, h1, h2, h3⟩ := measureKeys_adds u.Host queue.DB queue.Keys rdr c3 acc
      exact ⟨added, by simpa using h1, h2, h3⟩

theorem gatherQueue_adds_of_parsed (env : Env) (queue : Queue) (acc : Accumulator) (u0 : URL)
    (hparse : env.Parse (serverURL queue.Server) = .ok u0) :
    ∃ added, (gatherQueue env queue acc).acc = acc ++ added ∧
      added.length ≤ queue.Keys.length ∧ ∀ x ∈ added, x.isMeasurement = true := by
  simp only [gatherQueue, hparse]
  split
  · exact ⟨[], by simp, by simp, by simp⟩
  · rename_i c _
    exact session_adds _ queue c acc

/-- When the server address parses, one run of a group reports at most one
error, and at most one measurement for each key. -/
theorem gatherGroup_adds_of_parsed (env : Env) (queue : Queue) (acc : Accumulator) (u0 : URL)
    (hparse : env.Parse (serverURL queue.Server) = .ok u0) :
    ∃ added, (gatherGroup env queue acc).acc = acc ++ added ∧
      (added.filter AccCall.isError).length ≤ 1 ∧
      (added.filter AccCall.isMeasurement).length ≤ queue.Keys.length := by
  simp only [gatherGroup]
  split
  · exact ⟨[.AddError (some .ErrInvalidKey)], rfl, by simp [AccCall.isError],
      by simp [AccCall.isMeasurement]⟩
  · obtain ⟨added, h1, h2, h3⟩ := gatherQueue_adds_of_parsed env queue acc u0 hparse
    have herr := filter_isError_measurements h3
    have hm : (added.filter AccCall.isMeasurement).length ≤ queue.Keys.length :=
      le_trans filter_isMeasurement_length h2
    cases hout : (gatherQueue env queue acc).outcome with
    | panicked =>
      exact ⟨added, by simpa using h1, by simp [herr], hm⟩
    | returned e =>
      refine ⟨added ++ [.AddError e], by simp [h1], ?_, ?_⟩
      · rw [List.filter_append, herr]
        simp only [List.nil_append]
        exact List.length_filter_le _ _
      · rw [List.filter_append]
        simpa [AccCall.isMeasurement] using hm

/-- For a `tcp` URL the address dialed is the host of the URL as edited,
which is what the tag `redis_addr` gets. -/
theorem resolveAddress_tcp (env : Env) (serv : Str) (u0 : URL)
    (h : (resolveAddress env serv u0).1.Scheme = bytes "tcp") :
    (resolveAddress env serv u0).2 = (resolveAddress env serv u0).1.Host := by
  have ht : ¬ (bytes "tcp" = ([] : Str)) := by decide
  by_cases h0 : u0.Scheme = []
  · simp [resolveAddress, h0]
  · by_cases hs : u0.Scheme = bytes "tcp"
    · simp [resolveAddress, hs, ht]
    · simp [resolveAddress, h0, hs] at h

/-! ## Lines longer than the scanner takes -/

theorem longLine_no_newline (start : Str) (n : Nat) (h : 10 ∉ start) : 10 ∉ longLine start n := by
  intro hm
  rcases List.mem_append.1 hm with h1 | h1
  · exact h h1
  · exact absurd (List.eq_of_mem_replicate h1) (by decide)

theorem longLine_length (start : Str) (n : Nat) : (longLine start n).length = start.length + n := by
  rw [longLine, List.length_append, List.length_replicate]

/-- A reply whose first line is `longLine start n` with `n` at least
`MaxScanTokenSize`: the scan stops with `ErrTooLong`, which
`gatherQueueOutput` returns, and the accumulator is left as it was. -/
theorem gatherQueueOutput_longLine (start : Str) (n : Nat) (h : 10 ∉ start)
    (hn : bufio.MaxScanTokenSize ≤ n) (rest : Str) (acc : Accumulator) (tags : Tags) :
    ∃ rdr1 c1, gatherQueueOutput (stringReader (longLine start n ++ rest)).1
      (stringReader (longLine start n ++ rest)).2 acc tags = (some .ErrTooLong, rdr1, c1, acc) := by
  obtain ⟨r1, c1, hscan⟩ := bufio.Scan_too_long (stringReader (longLine start n ++ rest)).1
    (stringReader (longLine start n ++ rest)).2 rfl (longLine start n) rest
    (longLine_no_newline start n h) (by rw [longLine_length]; omega)
    (by simp only [stringReader, bufio.NewReader, Conn.stream, List.flatten_cons,
      List.flatten_nil, List.append_nil, List.nil_append])
  exact ⟨r1, c1, gatherQueueOutput_of_stop acc tags hscan⟩

/-! ## The claims -/

/-- C1: when the reply is the single line `:` followed by the base-10
rendering of a signed 64-bit integer `n`, alone or ended by `\n` or
`\r\n`, and however its bytes arrive, `gatherQueueOutput` returns no error
and adds exactly one measurement `redis_mq` with the field set
`{length: n}` and the tags it was given. -/
theorem gatherQueueOutput_integer_reply (n : Int) (hlo : -2 ^ 63 ≤ n) (hhi : n < 2 ^ 63)
    (term : Str) (hterm : term = [] ∨ term = bytes "\n" ∨ term = bytes "\r\n")
    (rdr : bufio.Reader) (c : Conn) (acc : Accumulator) (tags : Tags)
    (herr : rdr.err = none)
    (hreply : rdr.buf ++ c.stream = bytes ":" ++ strconv.FormatInt n ++ term) :
    ∃ rdr1 c1, gatherQueueOutput rdr c acc tags =
      (none, rdr1, c1, acc ++ [.AddFields (bytes "redis_mq") [(bytes "length", n)] tags]) := by
  have e : bytes ":" = [58] := by decide
  have hERR : bytes "ERR" = [69, 82, 82] := by decide
  rw [e] at hreply
  have hbytes : ∀ b ∈ 58 :: strconv.FormatInt n, b = 58 ∨ b = 45 ∨ (48 ≤ b ∧ b ≤ 57) := by
    intro b hb
    rcases List.mem_cons.1 hb with h | h
    · exact Or.inl h
    · exact Or.inr (FormatInt_bytes n b h)
  have hnl : 10 ∉ 58 :: strconv.FormatInt n := by
    intro h; have := hbytes 10 h; omega
  have hcr : (58 :: strconv.FormatInt n).getLast? ≠ some 13 := by
    intro h
    have := hbytes 13 (List.mem_of_getLast?_eq_some h)
    omega
  have hlen : (58 :: strconv.FormatInt n).length + 1 < bufio.MaxScanTokenSize := by
    have := FormatInt_length n hlo hhi
    simp only [List.length_cons, bufio.MaxScanTokenSize]
    omega
  obtain ⟨rdr1, c1, hscan⟩ := bufio.Scan_reply rdr c herr (58 :: strconv.FormatInt n) term
    hterm (by simp) hnl hcr hlen (by simpa using hreply)
  have hno : strings.Contains (58 :: strconv.FormatInt n) (bytes "ERR") = false := by
    rw [Bool.eq_false_iff]
    intro h
    have := hbytes 69 (strings.mem_of_Contains h 69 (by rw [hERR]; simp))
    omega
  exact ⟨rdr1, c1, gatherQueueOutput_of_integer acc tags hscan hno
    (strconv.ParseInt_FormatInt n hlo hhi)⟩

/-- C1, on the input of the plugin's test: `:21561` gives `length = 21561`. -/
theorem gatherQueueOutput_integer_reply_witness :
    ∃ rdr1 c1, gatherQueueOutput (stringReader (bytes ":21561")).1
        (stringReader (bytes ":21561")).2 [] testTags =
      (none, rdr1, c1, [] ++ [.AddFields (bytes "redis_mq") [(bytes "length", 21561)] testTags]) :=
  gatherQueueOutput_integer_reply 21561 (by decide) (by decide) [] (Or.inl rfl)
    (stringReader (bytes ":21561")).1 (stringReader (bytes ":21561")).2 [] testTags rfl
    (by decide)

/-- C2 as stated fails: the reply line `-ERR ` followed by 65536 bytes
`x` contains `ERR`, but it is longer than the scanner takes: the scan
fails and `gatherQueueOutput` returns `bufio.ErrTooLong`, not
`ErrProtocolError`. -/
theorem gatherQueueOutput_ERR_long_line_counterexample :
    bytes "ERR" <:+: longLine (bytes "-ERR ") 65536 ∧
    (gatherQueueOutput (stringReader (longLine (bytes "-ERR ") 65536 ++ bytes "\r\n")).1
      (stringReader (longLine (bytes "-ERR ") 65536 ++ bytes "\r\n")).2 [] testTags).1 =
        some .ErrTooLong ∧
    (gatherQueueOutput (stringReader (longLine (bytes "-ERR ") 65536 ++ bytes "\r\n")).1
      (stringReader (longLine (bytes "-ERR ") 65536 ++ bytes "\r\n")).2 [] testTags).1 ≠
        some .ErrProtocolError := by
  obtain ⟨r1, c1, h⟩ := gatherQueueOutput_longLine (bytes "-ERR ") 65536 (by decide)
    (by decide) (bytes "\r\n") [] testTags
  refine ⟨⟨bytes "-", bytes " " ++ List.replicate 65536 120, ?_⟩, ?_, ?_⟩
  · have e : bytes "-" ++ bytes "ERR" ++ bytes " " = bytes "-ERR " := by decide
    rw [longLine, ← e]
    simp only [List.append_assoc]
  · rw [h]
  · rw [h]
    exact fun hx => absurd (Option.some.inj hx) (by decide)

/-- C2, amended: when the first line of the reply, `raw` (counted with its
carriage return, if it has one, and without its newline), is shorter than
`bufio.MaxScanTokenSize` = 65536 bytes and contains `ERR` anywhere, with
or without a leading `:`, `gatherQueueOutput` returns `ErrProtocolError`
and leaves the accumulator as it was, whether the line is ended by a
newline or by the end of the data, and however the bytes arrive. -/
theorem gatherQueueOutput_ERR_reply (raw rest : Str)
    (hERR : bytes "ERR" <:+: raw) (hnl : 10 ∉ raw)
    (hlen : raw.length < bufio.MaxScanTokenSize)
    (rdr : bufio.Reader) (c : Conn) (acc : Accumulator) (tags : Tags)
    (herr : rdr.err = none)
    (hreply : rdr.buf ++ c.stream = raw ∨ rdr.buf ++ c.stream = raw ++ bytes "\n" ++ rest) :
    ∃ rdr1 c1, gatherQueueOutput rdr c acc tags = (some .ErrProtocolError, rdr1, c1, acc) := by
  have e : bytes "\n" = [10] := by decide
  have hne : raw ≠ [] := by
    intro h0
    rw [h0] at hERR
    exact absurd (List.eq_nil_of_infix_nil hERR) (by decide)
  obtain ⟨rdr1, c1, hscan⟩ := bufio.Scan_raw_line rdr c herr raw rest hne hnl hlen
    (by rw [e] at hreply; simpa using hreply)
  have hocc : bytes "ERR" <:+: bufio.dropCR raw :=
    bufio.occurs_dropCR (by decide) (by decide) hERR
  exact ⟨rdr1, c1, gatherQueueOutput_of_ERR acc tags hscan
    ((strings.Contains_iff_occurs _ _).2 hocc)⟩

/-- C2, amended, on the input of the plugin's test,
`-ERR unknown command 'eof'`, and on a line that begins with `:`. -/
theorem gatherQueueOutput_ERR_reply_witness :
    (∃ rdr1 c1, gatherQueueOutput (stringReader (bytes "-ERR unknown command 'eof'")).1
        (stringReader (bytes "-ERR unknown command 'eof'")).2 [] testTags =
      (some .ErrProtocolError, rdr1, c1, [])) ∧
    (∃ rdr1 c1, gatherQueueOutput (stringReader (bytes ":12ERR\r\n")).1
        (stringReader (bytes ":12ERR\r\n")).2 [] testTags =
      (some .ErrProtocolError, rdr1, c1, [])) :=
  ⟨gatherQueueOutput_ERR_reply (bytes "-ERR unknown command 'eof'") []
      ⟨bytes "-", bytes " unknown command 'eof'", by decide⟩ (by decide) (by decide)
      _ _ [] testTags rfl (Or.inl (by decide)),
   gatherQueueOutput_ERR_reply (bytes ":12ERR\r") []
      ⟨bytes ":12", bytes "\r", by decide⟩ (by decide) (by decide)
      _ _ [] testTags rfl (Or.inr (by decide))⟩

/-- C4: the code at a failing input: with keys `a` and `b`, the reply to
`LLEN a` is an error line, for which `gatherQueueOutput` returns
`ErrProtocolError`; `gatherQueue` goes on all the same, writes `LLEN b`
and adds the measurement of `b`, and returns `nil`. -/
theorem gatherQueue_goes_on_after_failed_key :
    (gatherQueueOutput bufio.NewReader
        { incoming := [bytes "-ERR operation not permitted\r\n", bytes ":5\r\n"],
          failure := .external (bytes "i/o timeout"),
          written := [bytes "SELECT 0\r\n", bytes "LLEN a\r\n"] } []
        (keyTags (bytes "localhost:6379") 0 (bytes "a"))).1 = some .ErrProtocolError ∧
    gatherQueue
        (tcpServer [] (bytes "localhost")
          [bytes "+OK\r\n", bytes "-ERR operation not permitted\r\n", bytes ":5\r\n"])
        { Server := bytes "localhost", DB := 0, Keys := [bytes "a", bytes "b"] } [] =
      { outcome := .returned none,
        acc := [.AddFields (bytes "redis_mq") [(bytes "length", 5)]
          [(bytes "key", bytes "b"), (bytes "db", bytes "0"), (bytes "real_key", bytes "b"),
           (bytes "redis_addr", bytes "localhost:6379")]],
        dialed := some (bytes "tcp", bytes "localhost:6379"),
        conn := some
          { incoming := [], failure := .external (bytes "i/o timeout"),
            written := [bytes "SELECT 0\r\n", bytes "LLEN a\r\n", bytes "LLEN b\r\n"] } } := by
  decide

/-- C5 as stated fails: for the `AUTH` reply `- denied`, the text after
the first byte, trimmed, is `denied`, but the error `gatherQueue` returns
has the message ` denied`, with the space: the line is trimmed first and
its first byte dropped after. -/
theorem gatherQueue_auth_error_counterexample :
    strings.TrimSpace ((bytes "- denied\r\n").drop 1) = bytes "denied" ∧
    (gatherQueue (tcpServer (bytes "secret") (bytes "localhost") [bytes "- denied\r\n"])
        { Server := bytes "tcp://:secret@localhost", DB := 0, Keys := [bytes "a"] } []).outcome =
      .returned (some (.errorf (bytes " denied"))) ∧
    (gatherQueue (tcpServer (bytes "secret") (bytes "localhost") [bytes "- denied\r\n"])
        { Server := bytes "tcp://:secret@localhost", DB := 0, Keys := [bytes "a"] } []).outcome ≠
      .returned (some (.errorf (strings.TrimSpace ((bytes "- denied\r\n").drop 1)))) := by
  decide

/-- C5, amended: when the line read after `AUTH` (sent for a non-empty
password) does not begin with `+` and is not white space only,
`gatherQueue` returns an error whose message is the line with leading and
trailing white space removed and then its first byte dropped; nothing is
added to the accumulator and nothing more is written to the connection. -/
theorem gatherQueue_auth_error (env : Env) (queue : Queue) (acc : Accumulator)
    (u0 u : URL) (address : Str) (c c1 : Conn) (user : Userinfo) (line : Str)
    (rdr1 : bufio.Reader)
    (hparse : env.Parse (serverURL queue.Server) = .ok u0)
    (hres : resolveAddress env (serverURL queue.Server) u0 = (u, address))
    (hdial : env.DialTimeout u.Scheme address = .ok c)
    (huser : u.User = some user) (hset : user.passwordSet = true) (hpwd : user.password ≠ [])
    (hread : bufio.NewReader.ReadString
      (c.Write (bytes "AUTH " ++ user.password ++ bytes "\r\n")) = ((line, none), rdr1, c1))
    (hplus : line.head? ≠ some 43)
    (htrim : strings.TrimSpace line ≠ []) :
    gatherQueue env queue acc =
      { outcome := .returned (some (.errorf ((strings.TrimSpace line).drop 1))),
        acc := acc, dialed := some (u.Scheme, address), conn := some c1 } := by
  have hauth : authenticate u c =
      (some (.returned (some (.errorf ((strings.TrimSpace line).drop 1)))), c1) := by
    simp only [authenticate, huser, Userinfo.Password, hset, if_true, hread]
    simp only [decide_True, Bool.true_and, ne_eq, hpwd, not_false_eq_true, if_true]
    cases line with
    | nil => simp [strings.TrimSpace, strings.TrimRightSpace, strings.TrimLeftSpace,
        strings.trimLeftLoop] at htrim
    | cons l0 rest =>
      have h0 : l0 ≠ 43 := by simpa using hplus
      simp only [ne_eq, h0, not_false_eq_true, if_true]
      cases ht : strings.TrimSpace (l0 :: rest) with
      | nil => exact absurd ht htrim
      | cons t msg => simp
  simp only [gatherQueue, hparse, hres, hdial, session, hauth]

/-- C5, amended, on the reply of a server that refuses the password:
`-ERR invalid password` gives the message `ERR invalid password`. -/
theorem gatherQueue_auth_error_witness :
    gatherQueue (tcpServer (bytes "secret") (bytes "localhost") [bytes "-ERR invalid password\r\n"])
        { Server := bytes "tcp://:secret@localhost", DB := 0, Keys := [bytes "a"] } [] =
      { outcome := .returned (some (.errorf
          ((strings.TrimSpace (bytes "-ERR invalid password\r\n")).drop 1))),
        acc := [], dialed := some (bytes "tcp", bytes "localhost:6379"),
        conn := some
          { incoming := [], failure := .external (bytes "i/o timeout"),
            written := [bytes "AUTH secret\r\n"] } } :=
  gatherQueue_auth_error
    (tcpServer (bytes "secret") (bytes "localhost") [bytes "-ERR invalid password\r\n"])
    { Server := bytes "tcp://:secret@localhost", DB := 0, Keys := [bytes "a"] } []
    (tcpURL (bytes "secret") (bytes "localhost"))
    { Scheme := bytes "tcp",
      User := some { username := [], password := bytes "secret", passwordSet := true },
      Host := bytes "localhost:6379", Path := [] }
    (bytes "localhost:6379")
    { incoming := [bytes "-ERR invalid password\r\n"], failure := .external (bytes "i/o timeout") }
    { incoming := [], failure := .external (bytes "i/o timeout"),
      written := [bytes "AUTH secret\r\n"] }
    { username := [], password := bytes "secret", passwordSet := true }
    (bytes "-ERR invalid password\r\n") bufio.NewReader
    rfl (by decide) rfl (by decide) (by decide) (by decide) (by decide)
    (by decide) (by decide)

/-- C6 as stated fails: the line of one space is empty once trimmed, but
for it `gatherQueueOutput` returns no error and adds a measurement without
fields. -/
theorem gatherQueueOutput_blank_line_counterexample :
    strings.TrimSpace (bytes " ") = [] ∧
    gatherQueueOutput (stringReader (bytes " \r\n")).1 (stringReader (bytes " \r\n")).2 []
        testTags =
      (none, bufio.NewReader, { incoming := [], failure := .EOF },
        [.AddFields (bytes "redis_mq") [] testTags]) := by
  decide

/-- C6, amended: when the reply begins with a line terminator, `\n` or
`\r\n`, so that its first line is empty, `gatherQueueOutput` returns
`ErrProtocolError` and leaves the accumulator as it was, however the bytes
arrive and whatever follows. -/
theorem gatherQueueOutput_empty_line (term rest : Str)
    (hterm : term = bytes "\n" ∨ term = bytes "\r\n")
    (rdr : bufio.Reader) (c : Conn) (acc : Accumulator) (tags : Tags)
    (herr : rdr.err = none)
    (hreply : rdr.buf ++ c.stream = term ++ rest) :
    ∃ rdr1 c1, gatherQueueOutput rdr c acc tags = (some .ErrProtocolError, rdr1, c1, acc) := by
  obtain ⟨rdr1, c1, hscan⟩ := bufio.Scan_empty_line rdr c herr term rest hterm hreply
  exact ⟨rdr1, c1, gatherQueueOutput_of_empty acc tags hscan⟩

/-- C6, amended, on the reply `\r\n`. -/
theorem gatherQueueOutput_empty_line_witness :
    ∃ rdr1 c1, gatherQueueOutput (stringReader (bytes "\r\n")).1 (stringReader (bytes "\r\n")).2
        [] testTags = (some .ErrProtocolError, rdr1, c1, []) :=
  gatherQueueOutput_empty_line (bytes "\r\n") [] (Or.inr rfl) _ _ [] testTags rfl (by decide)

/-- C7 as stated fails: the reply line `+OK ` followed by 65536 bytes `x`
is not empty, does not contain `ERR` and does not begin with `:`, but it is
longer than the scanner takes: `gatherQueueOutput` returns
`bufio.ErrTooLong` and adds no measurement. -/
theorem gatherQueueOutput_other_long_line_counterexample :
    longLine (bytes "+OK ") 65536 ≠ [] ∧
    ¬ bytes "ERR" <:+: longLine (bytes "+OK ") 65536 ∧
    (longLine (bytes "+OK ") 65536).head? ≠ some 58 ∧
    (gatherQueueOutput (stringReader (longLine (bytes "+OK ") 65536 ++ bytes "\r\n")).1
      (stringReader (longLine (bytes "+OK ") 65536 ++ bytes "\r\n")).2 [] testTags).1 =
        some .ErrTooLong ∧
    (gatherQueueOutput (stringReader (longLine (bytes "+OK ") 65536 ++ bytes "\r\n")).1
      (stringReader (longLine (bytes "+OK ") 65536 ++ bytes "\r\n")).2 [] testTags).2.2.2 =
        [] := by
  obtain ⟨r1, c1, h⟩ := gatherQueueOutput_longLine (bytes "+OK ") 65536 (by decide)
    (by decide) (bytes "\r\n") [] testTags
  have e : bytes "+OK " = [43, 79, 75, 32] := by decide
  refine ⟨?_, ?_, ?_, by rw [h], by rw [h]⟩
  · rw [longLine, e]
    exact List.cons_ne_nil _ _
  · intro hocc
    have h69 : 69 ∈ longLine (bytes "+OK ") 65536 := hocc.subset (by decide)
    rcases List.mem_append.1 h69 with h1 | h1
    · exact absurd h1 (by decide)
    · exact absurd (List.eq_of_mem_replicate h1) (by decide)
  · rw [longLine, e]
    simp only [List.cons_append, List.head?_cons]
    decide

/-- C7, amended: when the first line of the reply, `raw` (counted with its
carriage return, if it has one, and without its newline), is shorter than
`bufio.MaxScanTokenSize` = 65536 bytes, and the line, `raw` without its
carriage return, is not empty, does not contain `ERR` and is not an integer
reply (its first byte is not `:`, or what follows the `:` is not the text
of a signed 64-bit integer), `gatherQueueOutput` returns no error and adds
exactly one measurement `redis_mq`, with the tags it was given and no
field, whether the line is ended by a newline or by the end of the data,
and however the bytes arrive. -/
theorem gatherQueueOutput_other_reply (raw rest : Str)
    (hnl : 10 ∉ raw) (hlen : raw.length < bufio.MaxScanTokenSize)
    (hne : bufio.dropCR raw ≠ [])
    (hERR : ¬ bytes "ERR" <:+: bufio.dropCR raw)
    (hint : (bufio.dropCR raw).head? ≠ some 58 ∨
      ¬ strconv.IsInt64Text ((bufio.dropCR raw).drop 1))
    (rdr : bufio.Reader) (c : Conn) (acc : Accumulator) (tags : Tags)
    (herr : rdr.err = none)
    (hreply : rdr.buf ++ c.stream = raw ∨ rdr.buf ++ c.stream = raw ++ bytes "\n" ++ rest) :
    ∃ rdr1 c1, gatherQueueOutput rdr c acc tags =
      (none, rdr1, c1, acc ++ [.AddFields (bytes "redis_mq") [] tags]) := by
  have e : bytes "\n" = [10] := by decide
  obtain ⟨rdr1, c1, hscan⟩ := bufio.Scan_raw_line rdr c herr raw rest
    (bufio.dropCR_ne_nil hne) hnl hlen (by rw [e] at hreply; simpa using hreply)
  refine ⟨rdr1, c1, gatherQueueOutput_of_other acc tags hscan hne ?_ ?_⟩
  · rw [Bool.eq_false_iff]
    exact fun h => hERR ((strings.Contains_iff_occurs _ _).1 h)
  · rcases hint with h | h
    · exact Or.inl h
    · exact Or.inr (fun n hn => h ((strconv.ParseInt_ok_iff _).1 ⟨n, hn⟩))

/-- C7, amended, on the replies `+OK` and `:12a`. -/
theorem gatherQueueOutput_other_reply_witness :
    (∃ rdr1 c1, gatherQueueOutput (stringReader (bytes "+OK\r\n")).1
        (stringReader (bytes "+OK\r\n")).2 [] testTags =
      (none, rdr1, c1, [] ++ [.AddFields (bytes "redis_mq") [] testTags])) ∧
    (∃ rdr1 c1, gatherQueueOutput (stringReader (bytes ":12a")).1
        (stringReader (bytes ":12a")).2 [] testTags =
      (none, rdr1, c1, [] ++ [.AddFields (bytes "redis_mq") [] testTags])) :=
  ⟨gatherQueueOutput_other_reply (bytes "+OK\r") [] (by decide) (by decide) (by decide)
      (by decide) (Or.inl (by decide)) _ _ [] testTags rfl (Or.inr (by decide)),
   gatherQueueOutput_other_reply (bytes ":12a") [] (by decide) (by decide) (by decide)
      (by decide) (Or.inr (fun h => by
        obtain ⟨n, hn⟩ := (strconv.ParseInt_ok_iff _).2 h
        have e : strconv.ParseInt ((bufio.dropCR (bytes ":12a")).drop 1) = .error .invalid := rfl
        rw [e] at hn
        cases hn)) _ _ [] testTags rfl (Or.inl (by decide))⟩

/-- C8: the code at a failing input: when `url.Parse` fails, `gatherQueue`
reports the failure to the accumulator and also returns it, and the
goroutine of `Gather` reports what was returned: two errors for the one
group. -/
theorem gatherGroup_reports_parse_failure_twice :
    (gatherGroup
        (noParse (.external
          (bytes "parse \"tcp://local host\": invalid character \" \" in host name")))
        { Server := bytes "local host", DB := 0, Keys := [bytes "a"] } []).acc =
      [.AddError (some (.errorf (bytes ("Unable to parse to address 'tcp://local host': " ++
          "parse \"tcp://local host\": invalid character \" \" in host name")))),
       .AddError (some (.external
          (bytes "parse \"tcp://local host\": invalid character \" \" in host name")))] ∧
    ((gatherGroup
        (noParse (.external
          (bytes "parse \"tcp://local host\": invalid character \" \" in host name")))
        { Server := bytes "local host", DB := 0, Keys := [bytes "a"] } []).acc.filter
      AccCall.isError).length = 2 := by
  decide

/-- C9: the code at a failing input: for the server
`unix:///var/run/redis.sock` the address dialed is the socket path, but
the tag `redis_addr` of the measurement is `u.Host`, the empty string. -/
theorem gatherQueue_unix_redis_addr :
    gatherQueue (unixServer (bytes "/var/run/redis.sock") [bytes "+OK\r\n", bytes ":7\r\n"])
        { Server := bytes "unix:///var/run/redis.sock", DB := 0, Keys := [bytes "a"] } [] =
      { outcome := .returned none,
        acc := [.AddFields (bytes "redis_mq") [(bytes "length", 7)]
          [(bytes "key", bytes "a"), (bytes "db", bytes "0"), (bytes "real_key", bytes "a"),
           (bytes "redis_addr", [])]],
        dialed := some (bytes "unix", bytes "/var/run/redis.sock"),
        conn := some
          { incoming := [], failure := .external (bytes "i/o timeout"),
            written := [bytes "SELECT 0\r\n", bytes "LLEN a\r\n"] } } := by
  decide

/-- C10: the code at a failing input: when the line read after `AUTH` is
only `\r\n`, its first byte is not `+`, the trimmed line is empty, and
slicing it from index 1 panics. -/
theorem gatherQueue_auth_blank_line_panics :
    strings.TrimSpace (bytes "\r\n") = [] ∧
    gatherQueue (tcpServer (bytes "secret") (bytes "localhost") [bytes "\r\n"])
        { Server := bytes "tcp://:secret@localhost", DB := 0, Keys := [bytes "a"] } [] =
      { outcome := .panicked, acc := [],
        dialed := some (bytes "tcp", bytes "localhost:6379"),
        conn := some
          { incoming := [], failure := .external (bytes "i/o timeout"),
            written := [bytes "AUTH secret\r\n"] } } := by
  decide

end RedisMQ
